import Mathlib

/-!
# Verification of the documentation-crawler tools

A shallow embedding, in Lean 4, of the programs `crawl_links.py`,
`combine_texts.py` and (indirectly) `extract_text.py` of this repository,
together with proofs and refutations of the specified properties.

URLs are modelled as Lean `String`s; the character-level helpers work on
`List Char` (one entry per Unicode code point, matching Python's `str`
indexing and slicing).  The relevant parts of `urllib.parse`
(`urlsplit`, `urlunsplit`, `urlparse`, `urlunparse`, `urljoin`) are
translated from CPython (3.11 line) because `normalize_url`, `is_allowed`
and `crawl` call them; the translation covers inputs free of ASCII
control characters (CPython's removal of tab/CR/LF and leading C0
controls is the identity there) and elides the `Invalid IPv6 URL`
validation, which no property here touches.  The network fetcher and the
HTML anchor extractor are external collaborators and enter the crawl
model as function parameters.
-/

namespace CrawlLinks

/-- Python `s.startswith(p)` on character lists. -/
def startsWithL (s p : List Char) : Bool :=
  List.isPrefixOf p s

/-- Python `s.endswith(p)` for a single character. -/
def endsWithChar (s : List Char) (c : Char) : Bool :=
  s.getLast? = some c

/-- Python `s.rstrip("/")`: remove every trailing `'/'`. -/
def rstripSlash (s : List Char) : List Char :=
  (s.reverse.dropWhile (· == '/')).reverse

/-- The characters CPython's `urllib.parse` admits inside a URL scheme
(`scheme_chars`). -/
def schemeChar (c : Char) : Bool :=
  c.isAlpha || c.isDigit || c == '+' || c == '-' || c == '.'

/-- Split `l` at the first occurrence of `c`: returns the part before and
the part after (without `c`); if `c` is absent, returns `(l, [])`.
Mirrors Python `l.split(c, 1)` combined with the containment test. -/
def splitOnFirst (c : Char) (l : List Char) : List Char × List Char :=
  let pre := l.takeWhile (· ≠ c)
  if pre.length = l.length then (l, []) else (pre, l.drop (pre.length + 1))

/-- CPython `_splitnetloc` (with `start = 2` already applied by the
caller): the network location runs until the first `'/'`, `'?'` or
`'#'`. -/
def splitNetloc (l : List Char) : List Char × List Char :=
  let netloc := l.takeWhile (fun c => ¬ (c == '/' || c == '?' || c == '#'))
  (netloc, l.drop netloc.length)

/-- Scheme extraction step of CPython `urlsplit`: if the URL has a
`scheme:` head (first char ASCII-alphabetic, all chars in
`scheme_chars`, a `':'` at a positive index), return the lower-cased
scheme and the rest, otherwise the supplied default scheme and the whole
URL. -/
def splitScheme (dflt url : List Char) : List Char × List Char :=
  match url.findIdx? (· == ':') with
  | none => (dflt, url)
  | some i =>
    if 0 < i ∧ (url.head?.elim false Char.isAlpha)
        ∧ (url.take i).all schemeChar then
      ((url.take i).map Char.toLower, url.drop (i + 1))
    else (dflt, url)

/-- Shape of a scheme produced by `splitScheme`: nonempty, first char
ASCII-alphabetic and lower-case, all chars scheme chars, fixed under
lower-casing. -/
def validScheme (s : List Char) : Prop :=
  s ≠ [] ∧ s.head?.elim False (fun c => c.isAlpha = true) ∧
    s.all schemeChar = true ∧ s.map Char.toLower = s

/-- `scheme + ":"` when a scheme is present, `""` otherwise (the scheme
part that `urlunsplit` prepends). -/
def schemeColon (s : List Char) : List Char :=
  if s ≠ [] then s ++ [':'] else []

/-- A character that may appear in a netloc: anything but the three
delimiters `'/'`, `'?'`, `'#'`. -/
def netlocChar (c : Char) : Bool :=
  ¬ (c == '/' || c == '?' || c == '#')

/-- Result type of `urlsplit`: scheme, netloc, path, query, fragment. -/
structure UrlSplit where
  scheme : List Char
  netloc : List Char
  path : List Char
  query : List Char
  fragment : List Char
deriving DecidableEq, Repr

/-- CPython `urllib.parse.urlsplit` (3.11 line), on code-point lists.
`dflt` is the `scheme` default argument. -/
def urlsplitL (dflt url : List Char) : UrlSplit :=
  let (scheme, rest1) := splitScheme dflt url
  let (netloc, rest2) :=
    if rest1.take 2 = ['/', '/'] then splitNetloc (rest1.drop 2)
    else ([], rest1)
  let (rest3, fragment) := splitOnFirst '#' rest2
  let (path, query) := splitOnFirst '?' rest3
  ⟨scheme, netloc, path, query, fragment⟩

/-- The schemes of `urllib.parse.uses_relative` (CPython 3.11). -/
def usesRelative : List (List Char) :=
  ["", "ftp", "http", "gopher", "nntp", "imap", "wais", "file", "https",
   "shttp", "mms", "prospero", "rtsp", "rtsps", "rtspu", "sftp", "svn",
   "svn+ssh", "ws", "wss"].map String.data

/-- The schemes of `urllib.parse.uses_netloc` (CPython 3.11). -/
def usesNetloc : List (List Char) :=
  ["", "ftp", "http", "gopher", "nntp", "telnet", "imap", "wais", "file",
   "mms", "https", "shttp", "snews", "prospero", "rtsp", "rtsps", "rtspu",
   "rsync", "svn", "svn+ssh", "sftp", "nfs", "git", "git+ssh", "ws",
   "wss"].map String.data

/-- The schemes of `urllib.parse.uses_params` (CPython 3.11). -/
def usesParams : List (List Char) :=
  ["", "ftp", "hdl", "prospero", "http", "imap", "https", "shttp", "rtsp",
   "rtsps", "rtspu", "sip", "sips", "mms", "sftp", "tel"].map String.data

/-- CPython `urllib.parse.urlunsplit` (3.11 line), on code-point lists:
the `//` is re-inserted when a netloc is present, or when the scheme is
a known netloc-using scheme and the path does not already begin with
`//`. -/
def urlunsplitL (u : UrlSplit) : List Char :=
  let url := u.path
  let url :=
    if u.netloc ≠ [] ∨
        (u.scheme ≠ [] ∧ usesNetloc.contains u.scheme ∧ url.take 2 ≠ ['/', '/']) then
      let url' := if url ≠ [] ∧ url.head? ≠ some '/' then '/' :: url else url
      '/' :: '/' :: (u.netloc ++ url')
    else url
  let url := if u.scheme ≠ [] then u.scheme ++ ':' :: url else url
  let url := if u.query ≠ [] then url ++ '?' :: u.query else url
  if u.fragment ≠ [] then url ++ '#' :: u.fragment else url

/-- `normalize_url` from `crawl_links.py`, on code-point lists: drop the
fragment, re-assemble, and strip trailing slashes when the result ends
in `'/'` and is longer than `len(scheme) + 3`. -/
def normalizeUrlL (url : List Char) : List Char :=
  let parsed := urlsplitL [] url
  let cleaned : UrlSplit := { parsed with fragment := [] }
  let normalized := urlunsplitL cleaned
  if endsWithChar normalized '/' ∧ cleaned.scheme.length + 3 < normalized.length
  then rstripSlash normalized
  else normalized

/-- `normalize_url` on `String`s. -/
def normalize_url (url : String) : String :=
  ⟨normalizeUrlL url.data⟩

/-- `is_allowed` from `crawl_links.py`, on code-point lists: the URL must
start with the base as a literal string, and the path relative to
the base's path must not start with any exclude entry (each normalized
to begin with `'/'`). -/
def isAllowedL (url basePre : List Char) (excludes : List (List Char)) : Bool :=
  if ¬ startsWithL url basePre then false
  else
    let baseParts := urlsplitL [] basePre
    let urlParts := urlsplitL [] url
    let relativePath := urlParts.path.drop baseParts.path.length
    ¬ excludes.any (fun raw =>
      let normalized := if raw.head? = some '/' then raw else '/' :: raw
      startsWithL relativePath normalized)

/-- `is_allowed` on `String`s. -/
def is_allowed (url basePre : String) (excludes : List String) : Bool :=
  isAllowedL url.data basePre.data (excludes.map (·.data))

/-- Result type of `urlparse`: `urlsplit` plus the `params` component. -/
structure UrlParse where
  scheme : List Char
  netloc : List Char
  path : List Char
  params : List Char
  query : List Char
  fragment : List Char
deriving DecidableEq, Repr

/-- CPython `_splitparams`.  Its callers invoke it only when `';'`
occurs in the path, so the `find` results are nonnegative there; the
`none` fallbacks below are unreachable under that guard. -/
def splitparamsL (url : List Char) : List Char × List Char :=
  if url.contains '/' then
    let r := url.length - 1 - url.reverse.findIdx (· == '/')
    match (url.drop r).findIdx? (· == ';') with
    | none => (url, [])
    | some j => (url.take (r + j), url.drop (r + j + 1))
  else
    match url.findIdx? (· == ';') with
    | none => (url, [])
    | some i => (url.take i, url.drop (i + 1))

/-- CPython `urllib.parse.urlparse` (3.11 line), on code-point lists. -/
def urlparseL (dflt url : List Char) : UrlParse :=
  let s := urlsplitL dflt url
  if usesParams.contains s.scheme ∧ s.path.contains ';' then
    let (p, par) := splitparamsL s.path
    ⟨s.scheme, s.netloc, p, par, s.query, s.fragment⟩
  else
    ⟨s.scheme, s.netloc, s.path, [], s.query, s.fragment⟩

/-- CPython `urllib.parse.urlunparse`, on code-point lists. -/
def urlunparseL (u : UrlParse) : List Char :=
  let url := if u.params ≠ [] then u.path ++ ';' :: u.params else u.path
  urlunsplitL ⟨u.scheme, u.netloc, url, u.query, u.fragment⟩

/-- Python `s.split(c)` on code-point lists (always at least one,
possibly empty, segment). -/
def splitOnChar (c : Char) : List Char → List (List Char)
  | [] => [[]]
  | ch :: rest =>
    match splitOnChar c rest with
    | [] => [[]]
    | h :: t => if ch = c then [] :: h :: t else (ch :: h) :: t

/-- Python `'/'.join(l)`. -/
def joinSlash (l : List (List Char)) : List Char :=
  List.intercalate ['/'] l

/-- The slice assignment `segments[1:-1] = filter(None, segments[1:-1])`
of CPython `urljoin`: drop empty segments strictly between the first
and the last. -/
def filterMiddle : List (List Char) → List (List Char)
  | [] => []
  | [a] => [a]
  | a :: rest => a :: ((rest.dropLast.filter (· ≠ [])) ++ rest.getLast?.toList)

/-- The `..`/`.` resolution loop of CPython `urljoin` (`resolved_path`);
`pop` on an empty list is absorbed (`except IndexError: pass`). -/
def dotSegments (segments : List (List Char)) : List (List Char) :=
  segments.foldl (fun acc seg =>
    if seg = ['.', '.'] then acc.dropLast
    else if seg = ['.'] then acc
    else acc ++ [seg]) []

/-- CPython `urllib.parse.urljoin` (3.11 line), on code-point lists. -/
def urljoinL (base url : List Char) : List Char :=
  if base = [] then url
  else if url = [] then base
  else
    let b := urlparseL [] base
    let r := urlparseL b.scheme url
    if r.scheme ≠ b.scheme ∨ ¬ usesRelative.contains r.scheme then url
    else if usesNetloc.contains r.scheme ∧ r.netloc ≠ [] then urlunparseL r
    else
      let netloc := if usesNetloc.contains r.scheme then b.netloc else r.netloc
      if r.path = [] ∧ r.params = [] then
        let query := if r.query = [] then b.query else r.query
        urlunparseL ⟨r.scheme, netloc, b.path, b.params, query, r.fragment⟩
      else
        let baseParts := splitOnChar '/' b.path
        let baseParts :=
          if baseParts.getLast? ≠ some [] then baseParts.dropLast else baseParts
        let segments :=
          if r.path.head? = some '/' then splitOnChar '/' r.path
          else filterMiddle (baseParts ++ splitOnChar '/' r.path)
        let resolved := dotSegments segments
        let resolved :=
          if segments.getLast? = some ['.'] ∨ segments.getLast? = some ['.', '.']
          then resolved ++ [[]] else resolved
        let joined := joinSlash resolved
        let path := if joined = [] then ['/'] else joined
        urlunparseL ⟨r.scheme, netloc, path, r.params, r.query, r.fragment⟩

/-- `urllib.parse.urljoin` on `String`s. -/
def urljoin (base url : String) : String :=
  ⟨urljoinL base.data url.data⟩

/-!
## The crawl engine

`crawl` is modelled as a fuel-indexed loop over an explicit state.  The
network fetcher (`fetch_html`) and the anchor iterator (`AnchorCollector`
plus Python's set iteration order) are external collaborators and appear
as the function parameters `fetch : String → String` (empty string =
failure, as in the source) and `links : String → List String` (the raw
href values of an HTML document, in iteration order).

Beyond the four containers of the source (`queue`, `visited`,
`discovered`, the sink), the state carries two history fields that
record events without influencing them: `enqueued` (every URL ever
passed to `queue.append`, including the start URL) and `fetched` (every
URL ever passed to `fetch_html`), plus `sleeps`, the number of times
`time.sleep(0.25)` has run.  Python's sets `visited` and `discovered`
are lists in insertion order, queried by membership.
-/

/-- `s.startswith(("http://", "https://"))` from the crawl loop. -/
def hasHttpScheme (s : String) : Bool :=
  startsWithL s.data "http://".data || startsWithL s.data "https://".data

/-- The mutable state of `crawl`, plus event histories. -/
structure CrawlState where
  queue : List String
  visited : List String
  discovered : List String
  sink : List String
  enqueued : List String
  fetched : List String
  sleeps : Nat
deriving DecidableEq, Repr

/-- The body of the `for href in parser.hrefs()` loop: resolve against
`current + "/"`, normalize, keep only http/https URLs passing the scope
filter that are not yet discovered; such a URL is added to `discovered`,
appended to the queue and written (and flushed) to the sink. -/
def processHref (nb : String) (excludes : List String) (current : String)
    (st : CrawlState) (href : String) : CrawlState :=
  let absolute := normalize_url (urljoin (current ++ "/") href)
  if ¬ hasHttpScheme absolute then st
  else if ¬ is_allowed absolute nb excludes then st
  else if absolute ∈ st.discovered then st
  else
    { st with
      discovered := st.discovered ++ [absolute]
      queue := st.queue ++ [absolute]
      enqueued := st.enqueued ++ [absolute]
      sink := st.sink ++ [absolute] }

/-- The `while queue:` loop of `crawl`, with explicit fuel.  A dequeued
URL already in `visited` is skipped; otherwise it is marked visited and
fetched; an empty fetch result short-circuits the iteration (skipping
the `time.sleep`); otherwise every href is processed and the politeness
sleep runs. -/
def crawlLoop (fetch : String → String) (links : String → List String)
    (nb : String) (excludes : List String) : Nat → CrawlState → CrawlState
  | 0, st => st
  | fuel + 1, st =>
    match st.queue with
    | [] => st
    | current :: rest =>
      if current ∈ st.visited then
        crawlLoop fetch links nb excludes fuel { st with queue := rest }
      else
        let st1 := { st with
          queue := rest
          visited := st.visited ++ [current]
          fetched := st.fetched ++ [current] }
        if fetch current = "" then
          crawlLoop fetch links nb excludes fuel st1
        else
          let st2 := (links (fetch current)).foldl (processHref nb excludes current) st1
          crawlLoop fetch links nb excludes fuel { st2 with sleeps := st2.sleeps + 1 }

/-- The state right after seeding: the normalized start URL has been
queued, discovered, and written to the sink. -/
def seedState (ns : String) : CrawlState :=
  { queue := [ns], visited := [], discovered := [ns], sink := [ns]
    enqueued := [ns], fetched := [], sleeps := 0 }

/-- `crawl(start_url, base_prefix, excludes, sink)`.  The first
component is `some msg` when the `ValueError` for an out-of-scope start
URL is raised (in which case the second component is the pristine state:
nothing fetched, nothing written), and `none` when the crawl runs to
completion. -/
def crawl (fetch : String → String) (links : String → List String)
    (startUrl basePre : String) (excludes : List String) (fuel : Nat) :
    Option String × CrawlState :=
  let nb := normalize_url basePre
  let ns := normalize_url (urljoin (nb ++ "/") startUrl)
  if ¬ is_allowed ns nb excludes then
    (some ("Start URL " ++ ns ++ " is outside the permitted prefix " ++ nb),
     { queue := [], visited := [], discovered := [], sink := []
       enqueued := [], fetched := [], sleeps := 0 })
  else
    (none, crawlLoop fetch links nb excludes fuel (seedState ns))

/-- `main`'s exit code: the output file is opened (empty), the base
prefix is stripped of trailing slashes, and a `ValueError` from `crawl`
yields exit code 1, normal completion exit code 0. -/
def mainExit (fetch : String → String) (links : String → List String)
    (startUrl basePre : String) (excludes : List String) (fuel : Nat) : Nat :=
  if (crawl fetch links startUrl ⟨rstripSlash basePre.data⟩ excludes fuel).1.isSome
  then 1 else 0

/-- The admission pipeline applied to one raw href found on `current`:
resolve, normalize, then keep it only if it has an http/https scheme and
passes the scope filter.  `processHref` is this followed by the
`discovered`-membership check. -/
def childCandidate (nb : String) (excludes : List String)
    (current href : String) : Option String :=
  let absolute := normalize_url (urljoin (current ++ "/") href)
  if hasHttpScheme absolute ∧ is_allowed absolute nb excludes then some absolute
  else none

/-- The in-scope candidate children of a node `u` in the link graph
induced by `fetch` and `links`: empty on fetch failure, otherwise the
admitted hrefs in iteration order (possibly with repetitions and
already-discovered URLs; `crawl` deduplicates at enqueue time). -/
def bfsChildren (fetch : String → String) (links : String → List String)
    (nb : String) (excludes : List String) (u : String) : List String :=
  if fetch u = "" then []
  else (links (fetch u)).filterMap (childCandidate nb excludes u)

/-- Of `cands`, in order, those not in `disc` and not previously kept:
the sub-list that one pass of the href loop actually appends to the
queue, the discovered set and the sink. -/
def newOnes (disc : List String) : List String → List String
  | [] => []
  | a :: rest =>
    if a ∈ disc then newOnes disc rest
    else a :: newOnes (disc ++ [a]) rest

/-- `v` is reachable from `root` in at most `n` steps of the link
graph `children`. -/
def reachIn (children : String → List String) (root : String) :
    Nat → String → Prop
  | 0, v => v = root
  | n + 1, v =>
    reachIn children root n v ∨ ∃ u, reachIn children root n u ∧ v ∈ children u

/-- `v` is reachable from `root` in the link graph `children`. -/
def Reachable (children : String → List String) (root v : String) : Prop :=
  ∃ n, reachIn children root n v

/-- The BFS depth of `v`: the least number of steps in which `v` is
reachable from `root` (junk value `0` for unreachable `v`). -/
noncomputable def depth (children : String → List String) (root v : String) : Nat :=
  sInf { n | reachIn children root n v }

/-- The single-run uniqueness invariant of the crawl loop (claim C1):
the sink, the enqueue history and the discovered set are the same
duplicate-free list, the frontier draws from the discovered set, and no
frontier entry was already visited. -/
def C1Inv (st : CrawlState) : Prop :=
  st.enqueued.Nodup ∧ st.sink = st.enqueued ∧ st.discovered = st.enqueued ∧
  (∀ u ∈ st.queue, u ∈ st.discovered) ∧ st.queue.Nodup ∧
  (∀ u ∈ st.queue, u ∉ st.visited) ∧
  (∀ u ∈ st.visited, u ∈ st.discovered)

/-- The breadth-first invariant of the crawl loop (claim C8), relative
to the link graph `ch` rooted at `root`: the sink is the visit log
followed by the frontier; sink entries are reachable and listed in
nondecreasing depth; all of the sink sits within one layer of the
frontier head; everything strictly shallower than the head has been
visited, everything at most as deep as the head has been discovered;
the candidate children of every visited node have been discovered; and
the frontier is duplicate-free, disjoint from the visited set, with
`discovered` equal to the sink. -/
def BFSInv (ch : String → List String) (root : String) (st : CrawlState) : Prop :=
  st.sink = st.visited ++ st.queue ∧
  st.discovered = st.sink ∧
  (∀ v ∈ st.sink, Reachable ch root v) ∧
  List.Sorted (fun a b => depth ch root a ≤ depth ch root b) st.sink ∧
  (∀ u, st.queue.head? = some u →
    ∀ v ∈ st.sink, depth ch root v ≤ depth ch root u + 1) ∧
  (∀ u, st.queue.head? = some u →
    ∀ w, Reachable ch root w → depth ch root w < depth ch root u → w ∈ st.visited) ∧
  (∀ u, st.queue.head? = some u →
    ∀ w, Reachable ch root w → depth ch root w ≤ depth ch root u → w ∈ st.discovered) ∧
  (∀ p ∈ st.visited, ∀ v ∈ ch p, v ∈ st.discovered) ∧
  st.queue.Nodup ∧
  (∀ u ∈ st.queue, u ∉ st.visited)

/-!
### Concrete fixtures

Small link graphs used to evaluate the crawl on explicit inputs.  The
scope is `http://x/d`; fetch failure is the empty string.
-/

/-- Fixture fetcher: page `a` and page `c` fetch successfully, `b` (and
everything else) fails. -/
def fetchF : String → String := fun u =>
  if u = "http://x/d/a" then "pa" else if u = "http://x/d/c" then "pc" else ""

/-- Fixture anchor sets: `a` links to `b` and `c`; `c` links to `e`. -/
def linksF : String → List String := fun h =>
  if h = "pa" then ["http://x/d/b", "http://x/d/c"]
  else if h = "pc" then ["http://x/d/e"] else []

/-- Three-level fixture fetcher for the BFS example: the root `d` and
its depth-1 children `a`, `b` fetch successfully. -/
def fetch3 : String → String := fun u =>
  if u = "http://x/d" then "pr"
  else if u = "http://x/d/a" then "pA"
  else if u = "http://x/d/b" then "pB" else ""

/-- Three-level fixture anchors: root → `a`, `b`; `a` → `a1`, `a2`;
`b` → `b1`. -/
def links3 : String → List String := fun h =>
  if h = "pr" then ["http://x/d/a", "http://x/d/b"]
  else if h = "pA" then ["http://x/d/a1", "http://x/d/a2"]
  else if h = "pB" then ["http://x/d/b1"] else []

end CrawlLinks

/-!
## The combine tool (`combine_texts.py`)

The filesystem is external; the model receives the `.txt` files found
beneath the input directory as a list of (relative path, content) pairs
with `/`-separated normalized paths (nonempty components, none of them
empty, `.` or `..` — the shape `Path.relative_to` yields for real
files).
`sorted(root.rglob("*.txt"))` sorts the full paths `root/<rel>`, and on
the CPython 3.11 line `PurePath.__lt__` compares the *parts* tuples
(`_parts_normcase`, identity case fold on POSIX): e.g.
`docs/overview.txt` sorts *before* `docs.txt`, because the part `docs`
is a proper prefix of the part `docs.txt` (even though `'.' < '/'` as
characters).  Since all full paths share the parts of `root`, that
order coincides with the parts-wise order of the relative paths, which
is what `sortFiles` computes (as an insertion sort — Python's stable
sort computes the same list).  The `text_file == output_path` test
compares normalized paths; `outRel` is the output file's path relative
to the input directory when it lies inside it, and `none` otherwise.
-/

namespace CombineTexts

/-- A `.txt` file beneath the input directory. -/
structure TextFile where
  path : String
  content : String
deriving DecidableEq, Repr

/-- Lexicographic order on code-point lists — how Python compares the
path strings. -/
def charListLe : List Char → List Char → Bool
  | [], _ => true
  | _ :: _, [] => false
  | a :: as, b :: bs =>
    if a < b then true else if b < a then false else charListLe as bs

/-- The components of a `/`-separated relative path — `PurePath.parts`
for the clean relative paths `relative_to` produces. -/
def pathParts (p : String) : List (List Char) :=
  CrawlLinks.splitOnChar '/' p.data

/-- Lexicographic order on parts lists: how Python compares the parts
tuples (`<=` on tuples of strings). -/
def partsLe : List (List Char) → List (List Char) → Bool
  | [], _ => true
  | _ :: _, [] => false
  | a :: as, b :: bs => if a = b then partsLe as bs else charListLe a b

/-- Path comparison: CPython 3.11 `PurePath` ordering, i.e. `<=` on the
parts tuples. -/
def pathLe (a b : String) : Bool :=
  partsLe (pathParts a) (pathParts b)

/-- Insert into a path-sorted list. -/
def insertSorted (f : TextFile) : List TextFile → List TextFile
  | [] => [f]
  | g :: rest =>
    if pathLe f.path g.path then f :: g :: rest else g :: insertSorted f rest

/-- `sorted(...)` by path. -/
def sortFiles : List TextFile → List TextFile
  | [] => []
  | f :: rest => insertSorted f (sortFiles rest)

/-- The block written for one file: the `# Source:` marker line, the
file's content, then a blank line. -/
def entryBlock (f : TextFile) : String :=
  "# Source: " ++ f.path ++ "\n" ++ f.content ++ "\n\n"

/-- The concatenation of the blocks of a list of files, in order. -/
def concatBlocks : List TextFile → String
  | [] => ""
  | f :: rest => entryBlock f ++ concatBlocks rest

/-- The body of `main` in `combine_texts.py`: iterate over the sorted
files, skip the output file itself, and accumulate the written output
and the count. -/
def combineRun (files : List TextFile) (outRel : Option String) : String × Nat :=
  (sortFiles files).foldl
    (fun acc f =>
      if some f.path = outRel then acc
      else (acc.1 ++ entryBlock f, acc.2 + 1))
    ("", 0)

end CombineTexts

/-!
## Lemmas about the crawl loop
-/

namespace CrawlLinks

lemma newOnes_mem : ∀ (disc cands : List String) (a : String),
    a ∈ newOnes disc cands → a ∈ cands ∧ a ∉ disc := by
  intro disc cands
  induction cands generalizing disc with
  | nil => intro a h; simp [newOnes] at h
  | cons c rest ih =>
    intro a h
    by_cases hc : c ∈ disc
    · simp only [newOnes, if_pos hc] at h
      obtain ⟨h1, h2⟩ := ih disc a h
      exact ⟨List.mem_cons_of_mem _ h1, h2⟩
    · simp only [newOnes, if_neg hc] at h
      rcases List.mem_cons.1 h with rfl | h
      · exact ⟨List.mem_cons_self _ _, hc⟩
      · obtain ⟨h1, h2⟩ := ih (disc ++ [c]) a h
        exact ⟨List.mem_cons_of_mem _ h1,
          fun hd => h2 (List.mem_append_left _ hd)⟩

lemma newOnes_nodup : ∀ (disc cands : List String), (newOnes disc cands).Nodup := by
  intro disc cands
  induction cands generalizing disc with
  | nil => simp [newOnes]
  | cons c rest ih =>
    by_cases hc : c ∈ disc
    · simpa [newOnes, hc] using ih disc
    · simp only [newOnes, if_neg hc]
      refine List.nodup_cons.2 ⟨fun hmem => ?_, ih (disc ++ [c])⟩
      exact (newOnes_mem _ _ _ hmem).2
        (List.mem_append_right _ (List.mem_singleton.2 rfl))

lemma mem_disc_or_newOnes : ∀ (disc cands : List String) (a : String),
    a ∈ cands → a ∈ disc ∨ a ∈ newOnes disc cands := by
  intro disc cands
  induction cands generalizing disc with
  | nil => intro a h; simp at h
  | cons c rest ih =>
    intro a h
    by_cases hc : c ∈ disc
    · simp only [newOnes, if_pos hc]
      rcases List.mem_cons.1 h with rfl | h
      · exact Or.inl hc
      · exact ih disc a h
    · simp only [newOnes, if_neg hc]
      rcases List.mem_cons.1 h with rfl | h
      · exact Or.inr (List.mem_cons_self _ _)
      · rcases ih (disc ++ [c]) a h with hd | hd
        · rcases List.mem_append.1 hd with hd | hd
          · exact Or.inl hd
          · exact (List.mem_singleton.1 hd) ▸ Or.inr (List.mem_cons_self _ _)
        · exact Or.inr (List.mem_cons_of_mem _ hd)


lemma newOnes_cons_mem {disc : List String} {a : String} (rest : List String)
    (h : a ∈ disc) : newOnes disc (a :: rest) = newOnes disc rest := by
  simp [newOnes, h]

lemma newOnes_cons_not_mem {disc : List String} {a : String} (rest : List String)
    (h : a ∉ disc) : newOnes disc (a :: rest) = a :: newOnes (disc ++ [a]) rest := by
  simp [newOnes, h]

/-- A rejected or out-of-scope href leaves the state unchanged. -/
lemma processHref_none {nb : String} {ex : List String} {cur href : String}
    (st : CrawlState) (hc : childCandidate nb ex cur href = none) :
    processHref nb ex cur st href = st := by
  simp only [processHref, childCandidate] at hc ⊢
  by_cases h1 : hasHttpScheme (normalize_url (urljoin (cur ++ "/") href)) = true
  · by_cases h2 : is_allowed (normalize_url (urljoin (cur ++ "/") href)) nb ex = true
    · simp [h1, h2] at hc
    · simp [h1, h2]
  · simp [h1]

/-- An admitted href that is already discovered leaves the state
unchanged. -/
lemma processHref_some_mem {nb : String} {ex : List String} {cur href a : String}
    (st : CrawlState) (hc : childCandidate nb ex cur href = some a)
    (hd : a ∈ st.discovered) :
    processHref nb ex cur st href = st := by
  simp only [processHref, childCandidate] at hc ⊢
  by_cases h1 : hasHttpScheme (normalize_url (urljoin (cur ++ "/") href)) = true
  · by_cases h2 : is_allowed (normalize_url (urljoin (cur ++ "/") href)) nb ex = true
    · simp only [h1, h2, and_self, if_true, Option.some.injEq] at hc
      subst hc
      simp [h1, h2, hd]
    · simp [h1, h2] at hc
  · simp [h1] at hc

/-- An admitted, undiscovered href is appended to the discovered list,
the queue, the enqueue history and the sink. -/
lemma processHref_some_new {nb : String} {ex : List String} {cur href a : String}
    (st : CrawlState) (hc : childCandidate nb ex cur href = some a)
    (hd : a ∉ st.discovered) :
    processHref nb ex cur st href =
      { st with
        discovered := st.discovered ++ [a], queue := st.queue ++ [a],
        enqueued := st.enqueued ++ [a], sink := st.sink ++ [a] } := by
  simp only [processHref, childCandidate] at hc ⊢
  by_cases h1 : hasHttpScheme (normalize_url (urljoin (cur ++ "/") href)) = true
  · by_cases h2 : is_allowed (normalize_url (urljoin (cur ++ "/") href)) nb ex = true
    · simp only [h1, h2, and_self, if_true, Option.some.injEq] at hc
      subst hc
      simp [h1, h2, hd]
    · simp [h1, h2] at hc
  · simp [h1] at hc

/-- The whole href loop, characterized: it appends exactly
`newOnes st.discovered cands` (where `cands` is the admitted candidate
list) to the discovered list, the queue, the enqueue history and the
sink, and touches nothing else. -/
lemma foldl_processHref (nb : String) (ex : List String) (cur : String) :
    ∀ (hrefs : List String) (st : CrawlState),
    hrefs.foldl (processHref nb ex cur) st =
      { st with
        discovered := st.discovered ++
          newOnes st.discovered (hrefs.filterMap (childCandidate nb ex cur))
        queue := st.queue ++
          newOnes st.discovered (hrefs.filterMap (childCandidate nb ex cur))
        enqueued := st.enqueued ++
          newOnes st.discovered (hrefs.filterMap (childCandidate nb ex cur))
        sink := st.sink ++
          newOnes st.discovered (hrefs.filterMap (childCandidate nb ex cur)) } := by
  intro hrefs
  induction hrefs with
  | nil => intro st; simp [newOnes]
  | cons href rest ih =>
    intro st
    rw [List.foldl_cons]
    cases hc : childCandidate nb ex cur href with
    | none =>
      rw [processHref_none st hc, ih st, List.filterMap_cons_none hc]
    | some a =>
      rw [List.filterMap_cons_some hc]
      by_cases hd : a ∈ st.discovered
      · rw [processHref_some_mem st hc hd, ih st, newOnes_cons_mem _ hd]
      · rw [processHref_some_new st hc hd, ih, newOnes_cons_not_mem _ hd]
        simp [List.append_assoc]

lemma crawlLoop_zero (f : String → String) (l : String → List String)
    (nb : String) (ex : List String) (st : CrawlState) :
    crawlLoop f l nb ex 0 st = st := rfl

lemma crawlLoop_nil (f : String → String) (l : String → List String)
    (nb : String) (ex : List String) (fuel : Nat) (st : CrawlState)
    (h : st.queue = []) : crawlLoop f l nb ex fuel st = st := by
  cases fuel with
  | zero => rfl
  | succ n => simp only [crawlLoop, h]

lemma crawlLoop_succ_skip (f : String → String) (l : String → List String)
    (nb : String) (ex : List String) (fuel : Nat) (st : CrawlState)
    (current : String) (rest : List String)
    (h : st.queue = current :: rest) (hv : current ∈ st.visited) :
    crawlLoop f l nb ex (fuel + 1) st =
      crawlLoop f l nb ex fuel { st with queue := rest } := by
  simp only [crawlLoop, h, if_pos hv]

/-- One full visiting iteration of the crawl loop: the head is marked
visited and fetched, the newly admitted children are appended to the
queue, the discovered list, the enqueue history and the sink, and the
politeness sleep runs exactly when the fetch succeeded. -/
lemma crawlLoop_succ_visit (f : String → String) (l : String → List String)
    (nb : String) (ex : List String) (fuel : Nat) (st : CrawlState)
    (current : String) (rest : List String)
    (h : st.queue = current :: rest) (hv : current ∉ st.visited) :
    crawlLoop f l nb ex (fuel + 1) st =
      crawlLoop f l nb ex fuel
        { queue := rest ++ newOnes st.discovered (bfsChildren f l nb ex current)
          visited := st.visited ++ [current]
          discovered := st.discovered ++
            newOnes st.discovered (bfsChildren f l nb ex current)
          sink := st.sink ++ newOnes st.discovered (bfsChildren f l nb ex current)
          enqueued := st.enqueued ++
            newOnes st.discovered (bfsChildren f l nb ex current)
          fetched := st.fetched ++ [current]
          sleeps := st.sleeps + (if f current = "" then 0 else 1) } := by
  simp only [crawlLoop, h, if_neg hv]
  by_cases hf : f current = ""
  · simp [bfsChildren, hf, newOnes]
  · simp only [if_neg hf, bfsChildren]
    rw [foldl_processHref]

/-- The uniqueness invariant is preserved by the crawl loop, and the
discovered list only ever grows by appending. -/
lemma C1Inv_preserved (f : String → String) (l : String → List String)
    (nb : String) (ex : List String) :
    ∀ (fuel : Nat) (st : CrawlState), C1Inv st →
    C1Inv (crawlLoop f l nb ex fuel st) ∧
    ∃ tail, (crawlLoop f l nb ex fuel st).discovered = st.discovered ++ tail := by
  intro fuel
  induction fuel with
  | zero => exact fun st h => ⟨h, [], by simp [crawlLoop_zero]⟩
  | succ n ih =>
    intro st h
    obtain ⟨henq, hsink, hdisc, hqd, hqn, hqv, hvd⟩ := h
    cases hq : st.queue with
    | nil =>
      rw [crawlLoop_nil f l nb ex (n + 1) st hq]
      exact ⟨⟨henq, hsink, hdisc, hqd, hqn, hqv, hvd⟩, [], by simp⟩
    | cons current rest =>
      have hcur_q : current ∈ st.queue := by rw [hq]; exact List.mem_cons_self _ _
      have hcv : current ∉ st.visited := hqv current hcur_q
      have hcd : current ∈ st.discovered := hqd current hcur_q
      have hrest_n : rest.Nodup := by
        have := hqn; rw [hq] at this; exact (List.nodup_cons.1 this).2
      have hcur_rest : current ∉ rest := by
        have := hqn; rw [hq] at this; exact (List.nodup_cons.1 this).1
      rw [crawlLoop_succ_visit f l nb ex n st current rest hq hcv]
      have hKn : (newOnes st.discovered (bfsChildren f l nb ex current)).Nodup :=
        newOnes_nodup _ _
      have hKd : ∀ a ∈ newOnes st.discovered (bfsChildren f l nb ex current),
          a ∉ st.discovered := fun a ha => (newOnes_mem _ _ a ha).2
      have hInv' : C1Inv
          { queue := rest ++ newOnes st.discovered (bfsChildren f l nb ex current)
            visited := st.visited ++ [current]
            discovered := st.discovered ++
              newOnes st.discovered (bfsChildren f l nb ex current)
            sink := st.sink ++ newOnes st.discovered (bfsChildren f l nb ex current)
            enqueued := st.enqueued ++
              newOnes st.discovered (bfsChildren f l nb ex current)
            fetched := st.fetched ++ [current]
            sleeps := st.sleeps + (if f current = "" then 0 else 1) } := by
        refine ⟨?_, ?_, ?_, ?_, ?_, ?_, ?_⟩
        · exact List.Nodup.append henq hKn
            (fun a ha hK => hKd a hK (hdisc ▸ ha))
        · simp only [hsink]
        · simp only [hdisc]
        · intro u hu
          rcases List.mem_append.1 hu with hu | hu
          · exact List.mem_append_left _ (hqd u (by rw [hq]; exact List.mem_cons_of_mem _ hu))
          · exact List.mem_append_right _ hu
        · refine List.Nodup.append hrest_n hKn (fun a ha hK => ?_)
          exact hKd a hK (hqd a (by rw [hq]; exact List.mem_cons_of_mem _ ha))
        · intro u hu hmem
          rcases List.mem_append.1 hu with hu | hu
          · rcases List.mem_append.1 hmem with hm | hm
            · exact hqv u (by rw [hq]; exact List.mem_cons_of_mem _ hu) hm
            · exact hcur_rest ((List.mem_singleton.1 hm) ▸ hu)
          · rcases List.mem_append.1 hmem with hm | hm
            · exact hKd u hu (hvd u hm)
            · exact hKd u hu ((List.mem_singleton.1 hm) ▸ hcd)
        · intro u hu
          rcases List.mem_append.1 hu with hu | hu
          · exact List.mem_append_left _ (hvd u hu)
          · exact List.mem_append_left _ ((List.mem_singleton.1 hu) ▸ hcd)
      obtain ⟨hInv'', tail, htail⟩ := ih _ hInv'
      refine ⟨hInv'', newOnes st.discovered (bfsChildren f l nb ex current) ++ tail, ?_⟩
      rw [htail]
      simp [List.append_assoc]

/-- The sleep counter advances exactly on the newly fetched URLs whose
fetch succeeded. -/
lemma sleeps_counts_successes (f : String → String) (l : String → List String)
    (nb : String) (ex : List String) :
    ∀ (fuel : Nat) (st : CrawlState), ∃ new : List String,
      (crawlLoop f l nb ex fuel st).fetched = st.fetched ++ new ∧
      (crawlLoop f l nb ex fuel st).sleeps =
        st.sleeps + new.countP (fun u => !(f u == "")) := by
  intro fuel
  induction fuel with
  | zero => exact fun st => ⟨[], by simp [crawlLoop_zero]⟩
  | succ n ih =>
    intro st
    cases hq : st.queue with
    | nil => exact ⟨[], by simp [crawlLoop_nil f l nb ex (n + 1) st hq]⟩
    | cons current rest =>
      by_cases hv : current ∈ st.visited
      · rw [crawlLoop_succ_skip f l nb ex n st current rest hq hv]
        exact ih _
      · rw [crawlLoop_succ_visit f l nb ex n st current rest hq hv]
        obtain ⟨new, hfet, hslp⟩ := ih
          { queue := rest ++ newOnes st.discovered (bfsChildren f l nb ex current)
            visited := st.visited ++ [current]
            discovered := st.discovered ++
              newOnes st.discovered (bfsChildren f l nb ex current)
            sink := st.sink ++ newOnes st.discovered (bfsChildren f l nb ex current)
            enqueued := st.enqueued ++
              newOnes st.discovered (bfsChildren f l nb ex current)
            fetched := st.fetched ++ [current]
            sleeps := st.sleeps + (if f current = "" then 0 else 1) }
        refine ⟨current :: new, ?_, ?_⟩
        · rw [hfet]; simp
        · rw [hslp, List.countP_cons]
          by_cases hf : f current = ""
          · simp [hf]
          · simp only [hf]
            simp [hf]
            omega


/-- Seeding establishes the uniqueness invariant. -/
lemma C1Inv_seed (ns : String) : C1Inv (seedState ns) := by
  constructor
  · exact List.nodup_singleton ns
  · exact ⟨rfl, rfl, by simp [seedState], by simp [seedState], by simp [seedState],
      by simp [seedState]⟩

end CrawlLinks

/-!
## Claim theorems
-/

namespace CrawlLinks

/-- C1: during a single crawl run no canonical URL is enqueued onto the
frontier twice and none is written to the sink more than once.  The
invariant `C1Inv` — the sink, the enqueue history and the discovered
set are one and the same duplicate-free list, every frontier entry is
discovered, the frontier has no duplicates and no already-visited
entries, and the visited set sits inside the discovered set — holds in
every reachable state of the crawl loop (it is preserved from any state
that has it, and the discovered list never shrinks: it only ever grows
by appending), and it holds of the final state of every `crawl` run. -/
theorem crawl_no_duplicates :
    (∀ (f : String → String) (l : String → List String) (nb : String)
       (ex : List String) (fuel : Nat) (st : CrawlState), C1Inv st →
        C1Inv (crawlLoop f l nb ex fuel st) ∧
        ∃ tail, (crawlLoop f l nb ex fuel st).discovered = st.discovered ++ tail) ∧
    (∀ (f : String → String) (l : String → List String) (s b : String)
       (ex : List String) (fuel : Nat), C1Inv (crawl f l s b ex fuel).2) := by
  refine ⟨fun f l nb ex fuel st h => C1Inv_preserved f l nb ex fuel st h, ?_⟩
  intro f l s b ex fuel
  rw [crawl]
  by_cases hallow :
      is_allowed (normalize_url (urljoin (normalize_url b ++ "/") s))
        (normalize_url b) ex = true
  · rw [if_neg (by simp [hallow])]
    exact (C1Inv_preserved f l (normalize_url b) ex fuel _ (C1Inv_seed _)).1
  · rw [if_pos (by simp [hallow])]
    exact ⟨List.nodup_nil, rfl, rfl, by simp, List.nodup_nil, by simp, by simp⟩

/-- Witness for C1 at a concrete crawl: the invariant holds at the
seeded state and is propagated through a full run of the fixture
graph. -/
theorem crawl_no_duplicates_witness :
    C1Inv (crawlLoop fetchF linksF "http://x/d" [] 10 (seedState "http://x/d/a")) ∧
    ∃ tail, (crawlLoop fetchF linksF "http://x/d" [] 10
        (seedState "http://x/d/a")).discovered =
      (seedState "http://x/d/a").discovered ++ tail :=
  crawl_no_duplicates.1 fetchF linksF "http://x/d" [] 10
    (seedState "http://x/d/a") (C1Inv_seed "http://x/d/a")

/-- C2: a fetch failure is non-fatal.  Generally: an iteration whose
fetch returns the empty string only marks the dequeued URL visited (and
fetched) and moves on — no edges are contributed, nothing else changes.
Concretely, on the fixture graph `a → [b, c]` where the fetch of `b`
fails and `c → [e]`: `c` is still visited, and its child `e` is still
discovered, enqueued and written to the sink. -/
theorem fetch_failure_nonfatal :
    (∀ (f : String → String) (l : String → List String) (nb : String)
       (ex : List String) (fuel : Nat) (st : CrawlState)
       (current : String) (rest : List String),
      st.queue = current :: rest → current ∉ st.visited → f current = "" →
      crawlLoop f l nb ex (fuel + 1) st =
        crawlLoop f l nb ex fuel
          { st with
            queue := rest
            visited := st.visited ++ [current]
            fetched := st.fetched ++ [current] }) ∧
    (crawl fetchF linksF "http://x/d/a" "http://x/d" [] 10).2.visited =
      ["http://x/d/a", "http://x/d/b", "http://x/d/c", "http://x/d/e"] ∧
    (crawl fetchF linksF "http://x/d/a" "http://x/d" [] 10).2.sink =
      ["http://x/d/a", "http://x/d/b", "http://x/d/c", "http://x/d/e"] ∧
    fetchF "http://x/d/b" = "" := by
  refine ⟨?_, by decide, by decide, by decide⟩
  intro f l nb ex fuel st current rest hq hv hf
  rw [crawlLoop_succ_visit f l nb ex fuel st current rest hq hv]
  simp [bfsChildren, hf, newOnes]

/-- Witness for C2: the general failure-step description applied inside
the fixture run, at the state about to process the failing node `b`. -/
theorem fetch_failure_nonfatal_witness :
    crawlLoop fetchF linksF "http://x/d" [] 3
      { queue := ["http://x/d/b", "http://x/d/c"]
        visited := ["http://x/d/a"]
        discovered := ["http://x/d/a", "http://x/d/b", "http://x/d/c"]
        sink := ["http://x/d/a", "http://x/d/b", "http://x/d/c"]
        enqueued := ["http://x/d/a", "http://x/d/b", "http://x/d/c"]
        fetched := ["http://x/d/a"]
        sleeps := 1 } =
    crawlLoop fetchF linksF "http://x/d" [] 2
      { queue := ["http://x/d/c"]
        visited := ["http://x/d/a", "http://x/d/b"]
        discovered := ["http://x/d/a", "http://x/d/b", "http://x/d/c"]
        sink := ["http://x/d/a", "http://x/d/b", "http://x/d/c"]
        enqueued := ["http://x/d/a", "http://x/d/b", "http://x/d/c"]
        fetched := ["http://x/d/a", "http://x/d/b"]
        sleeps := 1 } :=
  fetch_failure_nonfatal.1 fetchF linksF "http://x/d" [] 2 _
    "http://x/d/b" ["http://x/d/c"] rfl (by decide) (by decide)


/-- `crawl` on a rejected start URL: the scope-violation error, with the
pristine (nothing-done) state. -/
lemma crawl_rejected (f : String → String) (l : String → List String)
    (s b : String) (ex : List String) (fuel : Nat)
    (hrej : is_allowed (normalize_url (urljoin (normalize_url b ++ "/") s))
      (normalize_url b) ex = false) :
    crawl f l s b ex fuel =
      (some ("Start URL " ++ normalize_url (urljoin (normalize_url b ++ "/") s) ++
        " is outside the permitted prefix " ++ normalize_url b),
       { queue := [], visited := [], discovered := [], sink := []
         enqueued := [], fetched := [], sleeps := 0 }) := by
  rw [crawl]
  rw [if_pos]
  simp [hrej]

/-- `crawl` on an accepted start URL: no error, and the loop runs from
the seeded state. -/
lemma crawl_accepted (f : String → String) (l : String → List String)
    (s b : String) (ex : List String) (fuel : Nat)
    (hacc : is_allowed (normalize_url (urljoin (normalize_url b ++ "/") s))
      (normalize_url b) ex = true) :
    crawl f l s b ex fuel =
      (none, crawlLoop f l (normalize_url b) ex fuel
        (seedState (normalize_url (urljoin (normalize_url b ++ "/") s)))) := by
  rw [crawl]
  rw [if_neg]
  simp [hacc]

/-- C3: an out-of-scope start URL is fatal and clean.  If the scope
filter rejects the normalized start URL, `crawl` returns the
scope-violation error with the pristine state — no fetch was made and
the sink holds nothing — and `main` exits 1; if the scope filter
accepts it, no scope error is raised and `main` exits 0.  (`main`
strips trailing slashes from the base prefix before calling `crawl`.) -/
theorem scope_violation_fatal :
    (∀ (f : String → String) (l : String → List String) (s b : String)
       (ex : List String) (fuel : Nat),
      is_allowed (normalize_url (urljoin (normalize_url b ++ "/") s))
          (normalize_url b) ex = false →
        crawl f l s b ex fuel =
          (some ("Start URL " ++
              normalize_url (urljoin (normalize_url b ++ "/") s) ++
              " is outside the permitted prefix " ++ normalize_url b),
           { queue := [], visited := [], discovered := [], sink := []
             enqueued := [], fetched := [], sleeps := 0 }) ∧
        (crawl f l s b ex fuel).2.sink = [] ∧
        (crawl f l s b ex fuel).2.fetched = []) ∧
    (∀ (f : String → String) (l : String → List String) (s b : String)
       (ex : List String) (fuel : Nat),
      is_allowed (normalize_url (urljoin (normalize_url b ++ "/") s))
          (normalize_url b) ex = true →
        (crawl f l s b ex fuel).1 = none) ∧
    (∀ (f : String → String) (l : String → List String) (s b : String)
       (ex : List String) (fuel : Nat),
      mainExit f l s b ex fuel =
        if is_allowed
            (normalize_url (urljoin
              (normalize_url (⟨rstripSlash b.data⟩ : String) ++ "/") s))
            (normalize_url (⟨rstripSlash b.data⟩ : String)) ex
        then 0 else 1) := by
  refine ⟨?_, ?_, ?_⟩
  · intro f l s b ex fuel hrej
    rw [crawl_rejected f l s b ex fuel hrej]
    exact ⟨rfl, rfl, rfl⟩
  · intro f l s b ex fuel hacc
    rw [crawl_accepted f l s b ex fuel hacc]
  · intro f l s b ex fuel
    by_cases hacc :
        is_allowed
          (normalize_url (urljoin
            (normalize_url (⟨rstripSlash b.data⟩ : String) ++ "/") s))
          (normalize_url (⟨rstripSlash b.data⟩ : String)) ex = true
    · simp only [mainExit,
        crawl_accepted f l s ⟨rstripSlash b.data⟩ ex fuel hacc]
      simp [hacc]
    · simp only [mainExit,
        crawl_rejected f l s ⟨rstripSlash b.data⟩ ex fuel
          (Bool.not_eq_true _ ▸ hacc : _ = false)]
      simp [hacc]

/-- Witness for C3, at the spec's own example: the start URL
`https://other.com` is rejected against the base `https://x.com/docs`
(empty sink, nothing fetched, exit code 1), while an in-scope start URL
completes with exit code 0. -/
theorem scope_violation_fatal_witness :
    crawl fetchF linksF "https://other.com" "https://x.com/docs" [] 5 =
      (some ("Start URL " ++
          normalize_url (urljoin (normalize_url "https://x.com/docs" ++ "/")
            "https://other.com") ++
          " is outside the permitted prefix " ++
          normalize_url "https://x.com/docs"),
       { queue := [], visited := [], discovered := [], sink := []
         enqueued := [], fetched := [], sleeps := 0 }) ∧
    mainExit fetchF linksF "https://other.com" "https://x.com/docs" [] 5 = 1 ∧
    (crawl fetchF linksF "http://x/d/a" "http://x/d" [] 5).1 = none ∧
    mainExit fetchF linksF "http://x/d/a" "http://x/d" [] 5 = 0 := by
  refine ⟨(scope_violation_fatal.1 fetchF linksF "https://other.com"
      "https://x.com/docs" [] 5 (by decide)).1, ?_, ?_, ?_⟩
  · rw [scope_violation_fatal.2.2 fetchF linksF "https://other.com"
      "https://x.com/docs" [] 5]
    decide
  · exact scope_violation_fatal.2.1 fetchF linksF "http://x/d/a"
      "http://x/d" [] 5 (by decide)
  · rw [scope_violation_fatal.2.2 fetchF linksF "http://x/d/a"
      "http://x/d" [] 5]
    decide


/-- C4: `is_allowed(url, base_prefix, excludes)` is true exactly when
`url` starts with `base_prefix` as a literal character-string prefix and
no exclude entry, once normalized to begin with `"/"`, is a prefix of
the URL path with the base path's length removed.  The two concrete
conjuncts instantiate the spec's examples: a literal prefix mismatch is
rejected, and the comparison is not path-segment aware (`/docs` admits
`/docs-internal`).  The model is a pure function, so there are no side
effects. -/
theorem is_allowed_spec :
    (∀ (url basePre : String) (ex : List String),
      is_allowed url basePre ex = true ↔
        (List.isPrefixOf basePre.data url.data ∧
          ∀ raw ∈ ex,
            ¬ List.isPrefixOf
              (if raw.data.head? = some '/' then raw.data else '/' :: raw.data)
              ((urlsplitL [] url.data).path.drop
                (urlsplitL [] basePre.data).path.length))) ∧
    is_allowed "https://x.com/b" "https://x.com/a" [] = false ∧
    is_allowed "https://x.com/docs-internal" "https://x.com/docs" [] = true ∧
    is_allowed "https://x.com/docs/reference/x" "https://x.com/docs"
      ["/reference"] = false ∧
    is_allowed "https://x.com/docs/guide" "https://x.com/docs"
      ["/reference"] = true := by
  refine ⟨?_, by decide, by decide, by decide, by decide⟩
  intro url basePre ex
  simp only [is_allowed, isAllowedL, startsWithL]
  by_cases hp : List.isPrefixOf basePre.data url.data
  · rw [if_neg (by simp [hp]), decide_eq_true_iff]
    constructor
    · intro hno
      refine ⟨hp, fun raw hraw hpre => hno ?_⟩
      rw [List.any_eq_true]
      exact ⟨raw.data, List.mem_map_of_mem _ hraw, hpre⟩
    · rintro ⟨-, h⟩ hany
      rw [List.any_eq_true] at hany
      obtain ⟨rawd, hrawd, hpred⟩ := hany
      obtain ⟨raw, hraw, rfl⟩ := List.mem_map.1 hrawd
      exact h raw hraw hpred
  · rw [if_pos (by simp [hp])]
    simp [hp]

/-- C5: the code evaluated at the root URL.  The source's own comment
says `Keep root slash (e.g. https://example.com/), trim only deeper
paths`, but the guard `len(normalized) > len(scheme) + 3` compares
against `len("https") + 3 = 8`, which any absolute URL exceeds, so the
trailing slash of the authority root `https://example.com/` (path
exactly `/`) is stripped too — while deeper paths are, as documented,
stripped. -/
theorem normalize_url_root_slash_stripped :
    normalize_url "https://example.com/" = "https://example.com" ∧
    (urlsplitL [] "https://example.com/".data).path = "/".data ∧
    normalize_url "https://x.com/a/" = "https://x.com/a" := by
  refine ⟨by decide, by decide, by decide⟩

/-- C6 counterexample: a crawl of the fixture graph processes (dequeues
and marks visited) four URLs, but sleeps only twice — the iterations
whose fetch failed skipped the `time.sleep(0.25)`, contradicting the
claim that the delay runs after every processed node regardless of
outcome. -/
theorem sleep_skipped_on_failure_cex :
    (crawl fetchF linksF "http://x/d/a" "http://x/d" [] 10).2.visited.length = 4 ∧
    (crawl fetchF linksF "http://x/d/a" "http://x/d" [] 10).2.sleeps = 2 ∧
    fetchF "http://x/d/b" = "" := by
  refine ⟨by decide, by decide, by decide⟩

/-- C6 (amended): the politeness delay runs exactly once per processed
node whose fetch returned a non-empty body; iterations that dequeue an
already-visited URL, and iterations whose fetch fails, do not sleep.
Formally: over any stretch of the loop, the sleep counter advances by
the number of newly fetched URLs with non-empty fetch results. -/
theorem sleep_after_success_only :
    ∀ (f : String → String) (l : String → List String) (nb : String)
      (ex : List String) (fuel : Nat) (st : CrawlState),
      ∃ new : List String,
        (crawlLoop f l nb ex fuel st).fetched = st.fetched ++ new ∧
        (crawlLoop f l nb ex fuel st).sleeps =
          st.sleeps + new.countP (fun u => !(f u == "")) :=
  fun f l nb ex fuel st => sleeps_counts_successes f l nb ex fuel st

/-- C7 counterexample: `normalize_url` is not idempotent.  Stripping the
trailing slashes of `http://x.com/p?/` empties the query but leaves the
bare `?`, which a second normalization then drops; and
`http://///` collapses to `http:`, which a second normalization expands
to `http://`. -/
theorem normalize_not_idempotent_cex :
    normalize_url "http://x.com/p?/" = "http://x.com/p?" ∧
    normalize_url "http://x.com/p?" = "http://x.com/p" ∧
    normalize_url (normalize_url "http://x.com/p?/") ≠
      normalize_url "http://x.com/p?/" ∧
    normalize_url "http://///" = "http:" ∧
    normalize_url "http:" = "http://" ∧
    normalize_url (normalize_url "http://///") ≠ normalize_url "http://///" := by
  refine ⟨by decide, by decide, by decide, by decide, by decide, by decide⟩

/-- C10 counterexample: two URLs that differ only in the number of
trailing slashes (`http://x.com/p?` and `http://x.com/p?/`, both well
past the length guard) normalize to different canonical nodes, because
the stripped slash hides behind the `?`. -/
theorem trailing_slash_classes_cex :
    rstripSlash "http://x.com/p?".data = rstripSlash "http://x.com/p?/".data ∧
    normalize_url "http://x.com/p?" ≠ normalize_url "http://x.com/p?/" := by
  refine ⟨by decide, by decide⟩

end CrawlLinks

namespace CombineTexts

lemma charListLe_cons_iff {a b : Char} {as bs : List Char} :
    charListLe (a :: as) (b :: bs) = true ↔
      a < b ∨ (a = b ∧ charListLe as bs = true) := by
  by_cases h1 : a < b
  · simp [charListLe, h1]
  · by_cases h2 : b < a
    · have hne : a ≠ b := fun he => absurd (he ▸ h2) (lt_irrefl b)
      simp [charListLe, h1, h2, hne]
    · have he : a = b := le_antisymm (not_lt.1 h2) (not_lt.1 h1)
      simp [charListLe, h1, h2, he]

lemma charListLe_total : ∀ x y : List Char,
    charListLe x y = true ∨ charListLe y x = true := by
  intro x
  induction x with
  | nil => intro y; left; rfl
  | cons a as ih =>
    intro y
    cases y with
    | nil => right; rfl
    | cons b bs =>
      by_cases h1 : a < b
      · left; exact charListLe_cons_iff.2 (Or.inl h1)
      · by_cases h2 : b < a
        · right; exact charListLe_cons_iff.2 (Or.inl h2)
        · have he : a = b := le_antisymm (not_lt.1 h2) (not_lt.1 h1)
          rcases ih bs with h | h
          · left; exact charListLe_cons_iff.2 (Or.inr ⟨he, h⟩)
          · right; exact charListLe_cons_iff.2 (Or.inr ⟨he.symm, h⟩)

lemma charListLe_trans : ∀ x y z : List Char,
    charListLe x y = true → charListLe y z = true → charListLe x z = true := by
  intro x
  induction x with
  | nil => intro y z _ _; rfl
  | cons a as ih =>
    intro y z hxy hyz
    cases y with
    | nil => simp [charListLe] at hxy
    | cons b bs =>
      cases z with
      | nil => simp [charListLe] at hyz
      | cons c cs =>
        rcases charListLe_cons_iff.1 hxy with hab | ⟨rfl, hab⟩
        · rcases charListLe_cons_iff.1 hyz with hbc | ⟨rfl, hbc⟩
          · exact charListLe_cons_iff.2 (Or.inl (lt_trans hab hbc))
          · exact charListLe_cons_iff.2 (Or.inl hab)
        · rcases charListLe_cons_iff.1 hyz with hbc | ⟨rfl, hbc⟩
          · exact charListLe_cons_iff.2 (Or.inl hbc)
          · exact charListLe_cons_iff.2 (Or.inr ⟨rfl, ih bs cs hab hbc⟩)

lemma charListLe_antisymm : ∀ {x y : List Char},
    charListLe x y = true → charListLe y x = true → x = y := by
  intro x
  induction x with
  | nil =>
    intro y hxy hyx
    cases y with
    | nil => rfl
    | cons b bs => simp [charListLe] at hyx
  | cons a as ih =>
    intro y hxy hyx
    cases y with
    | nil => simp [charListLe] at hxy
    | cons b bs =>
      rcases charListLe_cons_iff.1 hxy with hab | ⟨rfl, hab⟩
      · rcases charListLe_cons_iff.1 hyx with hba | ⟨rfl, hba⟩
        · exact absurd (lt_trans hab hba) (lt_irrefl _)
        · exact absurd hab (lt_irrefl _)
      · rcases charListLe_cons_iff.1 hyx with hba | ⟨-, hba⟩
        · exact absurd hba (lt_irrefl _)
        · rw [ih hab hba]

lemma partsLe_total : ∀ x y : List (List Char),
    partsLe x y = true ∨ partsLe y x = true := by
  intro x
  induction x with
  | nil => intro y; left; rfl
  | cons a as ih =>
    intro y
    cases y with
    | nil => right; rfl
    | cons b bs =>
      by_cases he : a = b
      · subst he
        rcases ih bs with h | h
        · left
          simp [partsLe, h]
        · right
          simp [partsLe, h]
      · have he2 : b ≠ a := fun hba => he hba.symm
        rcases charListLe_total a b with h | h
        · left
          simp [partsLe, he, h]
        · right
          simp [partsLe, he2, h]

lemma partsLe_trans : ∀ x y z : List (List Char),
    partsLe x y = true → partsLe y z = true → partsLe x z = true := by
  intro x
  induction x with
  | nil => intro y z _ _; rfl
  | cons a as ih =>
    intro y z hxy hyz
    cases y with
    | nil => simp [partsLe] at hxy
    | cons b bs =>
      cases z with
      | nil => simp [partsLe] at hyz
      | cons c cs =>
        simp only [partsLe] at hxy hyz ⊢
        by_cases hab : a = b
        · subst hab
          rw [if_pos rfl] at hxy
          by_cases hbc : a = c
          · subst hbc
            rw [if_pos rfl] at hyz
            rw [if_pos rfl]
            exact ih bs cs hxy hyz
          · rw [if_neg hbc] at hyz
            rw [if_neg hbc]
            exact hyz
        · rw [if_neg hab] at hxy
          by_cases hbc : b = c
          · subst hbc
            rw [if_neg hab]
            exact hxy
          · rw [if_neg hbc] at hyz
            have hac : a ≠ c := by
              intro he
              subst he
              exact hab (charListLe_antisymm hxy hyz)
            rw [if_neg hac]
            exact charListLe_trans a b c hxy hyz

lemma pathLe_total (a b : String) : pathLe a b = true ∨ pathLe b a = true :=
  partsLe_total (pathParts a) (pathParts b)

lemma pathLe_trans {a b c : String} (h1 : pathLe a b = true)
    (h2 : pathLe b c = true) : pathLe a c = true :=
  partsLe_trans (pathParts a) (pathParts b) (pathParts c) h1 h2

lemma insertSorted_perm (f : TextFile) :
    ∀ l : List TextFile, (insertSorted f l).Perm (f :: l) := by
  intro l
  induction l with
  | nil => simp [insertSorted]
  | cons g rest ih =>
    by_cases h : pathLe f.path g.path = true
    · simp [insertSorted, h]
    · rw [insertSorted, if_neg (by simpa using h)]
      exact (ih.cons g).trans (List.Perm.swap f g rest)

lemma sortFiles_perm : ∀ l : List TextFile, (sortFiles l).Perm l := by
  intro l
  induction l with
  | nil => simp [sortFiles]
  | cons f rest ih =>
    exact (insertSorted_perm f (sortFiles rest)).trans (ih.cons f)

lemma insertSorted_sorted (f : TextFile) :
    ∀ l : List TextFile,
      List.Sorted (fun a b : TextFile => pathLe a.path b.path = true) l →
      List.Sorted (fun a b : TextFile => pathLe a.path b.path = true)
        (insertSorted f l) := by
  intro l
  induction l with
  | nil => intro _; simp [insertSorted]
  | cons g rest ih =>
    intro hs
    rw [List.sorted_cons] at hs
    obtain ⟨hg, hrest⟩ := hs
    by_cases h : pathLe f.path g.path = true
    · rw [insertSorted, if_pos (by simpa using h), List.sorted_cons]
      refine ⟨?_, List.sorted_cons.2 ⟨hg, hrest⟩⟩
      intro b hb
      rcases List.mem_cons.1 hb with rfl | hb
      · exact h
      · exact pathLe_trans h (hg b hb)
    · rw [insertSorted, if_neg (by simpa using h), List.sorted_cons]
      refine ⟨?_, ih hrest⟩
      intro b hb
      have hb' := (insertSorted_perm f rest).mem_iff.1 hb
      rcases List.mem_cons.1 hb' with rfl | hb'
      · rcases pathLe_total b.path g.path with hx | hx
        · exact absurd hx h
        · exact hx
      · exact hg b hb'

lemma sortFiles_sorted : ∀ l : List TextFile,
    List.Sorted (fun a b : TextFile => pathLe a.path b.path = true)
      (sortFiles l) := by
  intro l
  induction l with
  | nil => simp [sortFiles]
  | cons f rest ih => exact insertSorted_sorted f (sortFiles rest) ih

lemma strAppend_assoc (a b c : String) : a ++ b ++ c = a ++ (b ++ c) := by
  cases a with
  | mk xa =>
    cases b with
    | mk xb =>
      cases c with
      | mk xc =>
        show String.mk ((xa ++ xb) ++ xc) = String.mk (xa ++ (xb ++ xc))
        rw [List.append_assoc]

lemma foldl_combine (o : Option String) :
    ∀ (l : List TextFile) (acc : String × Nat),
      l.foldl (fun acc f =>
          if some f.path = o then acc
          else (acc.1 ++ entryBlock f, acc.2 + 1)) acc =
        (acc.1 ++ concatBlocks (l.filter (fun f => some f.path ≠ o)),
         acc.2 + (l.filter (fun f => some f.path ≠ o)).length) := by
  intro l
  induction l with
  | nil =>
    intro acc
    cases acc
    simp [concatBlocks]
  | cons f rest ih =>
    intro acc
    rw [List.foldl_cons]
    by_cases h : some f.path = o
    · rw [if_pos h, ih]
      rw [List.filter_cons_of_neg (by simp [h])]
    · rw [if_neg h, ih]
      rw [List.filter_cons_of_pos (by simp [h])]
      rw [concatBlocks]
      rw [← strAppend_assoc]
      simp [Nat.add_assoc, Nat.add_comm]

end CombineTexts

namespace CombineTexts

/-- C9: the combine tool concatenates the `.txt` files found beneath
the input directory in sorted path order — the iteration order is a
sorted permutation of the gathered files under CPython 3.11's
`PurePath` order, which compares the parts tuples — writing for each
one the `# Source: <relative path>` marker line, the file's content and
a blank line, and skipping the output file itself when it lies inside
the input directory.  The concrete conjuncts replay the spec's example
(`a.txt` = "X", `sub/b.txt` = "Y"), the skip of the output file, and
the parts-wise order: `retail/docs/overview.txt` precedes
`retail/docs.txt` because the part `docs` is a proper prefix of the
part `docs.txt`. -/
theorem combine_spec :
    (∀ (files : List TextFile) (o : Option String),
      combineRun files o =
        (concatBlocks ((sortFiles files).filter (fun f => some f.path ≠ o)),
         ((sortFiles files).filter (fun f => some f.path ≠ o)).length)) ∧
    (∀ files : List TextFile,
      List.Sorted (fun a b : TextFile => pathLe a.path b.path = true)
        (sortFiles files) ∧
      (sortFiles files).Perm files) ∧
    combineRun [⟨"sub/b.txt", "Y"⟩, ⟨"a.txt", "X"⟩] none =
      ("# Source: a.txt\nX\n\n# Source: sub/b.txt\nY\n\n", 2) ∧
    combineRun [⟨"all.txt", "Z"⟩, ⟨"a.txt", "X"⟩] (some "all.txt") =
      ("# Source: a.txt\nX\n\n", 1) ∧
    combineRun [⟨"retail/docs.txt", "D"⟩, ⟨"retail/docs/overview.txt", "O"⟩] none =
      ("# Source: retail/docs/overview.txt\nO\n\n# Source: retail/docs.txt\nD\n\n",
       2) := by
  refine ⟨?_, ?_, by decide, by decide, by decide⟩
  · intro files o
    rw [combineRun, foldl_combine]
    cases h : concatBlocks ((sortFiles files).filter (fun f => some f.path ≠ o)) with
    | mk d => simp
  · intro files
    exact ⟨sortFiles_sorted files, sortFiles_perm files⟩

end CombineTexts

/-!
## Character-list lemmas for the URL layer
-/

namespace CrawlLinks

lemma rstripSlash_eq_self {l : List Char} (h : l.getLast? ≠ some '/') :
    rstripSlash l = l := by
  rw [rstripSlash]
  cases hrev : l.reverse with
  | nil =>
    have : l = [] := by simpa using congrArg List.reverse hrev
    simp [this]
  | cons a as =>
    have ha : l.getLast? = some a := by
      rw [← List.head?_reverse, hrev]; rfl
    have ha' : a ≠ '/' := fun he => h (by rw [ha, he])
    have hne : (a == '/') = false := by simpa using ha'
    rw [List.dropWhile_cons, hne]
    simp only [Bool.false_eq_true, if_false]
    rw [← hrev, List.reverse_reverse]

lemma rstripSlash_nil : rstripSlash [] = [] := rfl

lemma rstripSlash_getLast {l : List Char} (h : rstripSlash l ≠ []) :
    (rstripSlash l).getLast? ≠ some '/' := by
  rw [rstripSlash] at h ⊢
  have hdw := List.head?_dropWhile_not (· == '/') l.reverse
  cases hd : l.reverse.dropWhile (· == '/') with
  | nil => simp [hd] at h
  | cons a as =>
    rw [hd] at hdw
    simp only [List.head?_cons] at hdw
    rw [List.getLast?_reverse, List.head?_cons]
    intro hEq
    rw [show a = '/' by simpa using hEq] at hdw
    simp at hdw

lemma rstripSlash_idem (l : List Char) :
    rstripSlash (rstripSlash l) = rstripSlash l := by
  by_cases h : rstripSlash l = []
  · rw [h]; rfl
  · exact rstripSlash_eq_self (rstripSlash_getLast h)

lemma rstripSlash_append (x y : List Char) :
    rstripSlash (x ++ y) =
      if rstripSlash y = [] then rstripSlash x else x ++ rstripSlash y := by
  rw [rstripSlash, List.reverse_append, List.dropWhile_append]
  by_cases h : (y.reverse.dropWhile (· == '/')).isEmpty = true
  · have h' : rstripSlash y = [] := by
      rw [rstripSlash, List.isEmpty_iff.1 h]; rfl
    rw [if_pos h, if_pos h']; rfl
  · have h' : ¬ rstripSlash y = [] := by
      intro hc
      rw [rstripSlash] at hc
      have := congrArg List.reverse hc
      rw [List.reverse_reverse] at this
      simp [this] at h
    rw [if_neg h, if_neg h', List.reverse_append, List.reverse_reverse]
    rfl

lemma rstripSlash_pre (l : List Char) : rstripSlash l <+: l := by
  have h := List.dropWhile_suffix (l := l.reverse) (· == '/')
  have := List.IsSuffix.reverse h
  rwa [List.reverse_reverse] at this

lemma rstripSlash_all_slash {l : List Char} (h : ∀ c ∈ l, c = '/') :
    rstripSlash l = [] := by
  rw [rstripSlash]
  have : l.reverse.dropWhile (· == '/') = [] := by
    rw [List.dropWhile_eq_nil_iff]
    intro x hx
    simp [h x (List.mem_reverse.1 hx)]
  rw [this]; rfl

lemma splitOnFirst_of_not_mem {c : Char} {l : List Char} (h : c ∉ l) :
    splitOnFirst c l = (l, []) := by
  rw [splitOnFirst]
  have : l.takeWhile (· ≠ c) = l := by
    rw [List.takeWhile_eq_self_iff]
    intro x hx
    simp only [ne_eq, decide_eq_true_eq]
    exact fun he => h (he ▸ hx)
  rw [this, if_pos rfl]

lemma takeWhile_eq_self_of_all {p : Char → Bool} {l : List Char}
    (h : ∀ x ∈ l, p x = true) : l.takeWhile p = l :=
  List.takeWhile_eq_self_iff.2 h

lemma takeWhile_append_head_false {p : Char → Bool} {x y : List Char}
    (hx : ∀ a ∈ x, p a = true) (hy : y = [] ∨ ∃ b ys, y = b :: ys ∧ p b = false) :
    (x ++ y).takeWhile p = x := by
  induction x with
  | nil =>
    rcases hy with rfl | ⟨b, ys, rfl, hb⟩
    · rfl
    · simp [List.takeWhile_cons, hb]
  | cons a as ih =>
    have ha : p a = true := hx a (List.mem_cons_self _ _)
    rw [List.cons_append, List.takeWhile_cons, ha]
    simp only [if_true]
    rw [ih (fun b hb => hx b (List.mem_cons_of_mem _ hb))]

lemma findIdx?_append_colon {s r : List Char} (hs : ':' ∉ s) :
    (s ++ ':' :: r).findIdx? (· == ':') = some s.length := by
  induction s with
  | nil => simp [List.findIdx?_cons]
  | cons a as ih =>
    have ha : (a == ':') = false := by
      simp only [beq_eq_false_iff_ne, ne_eq]
      exact fun he => hs (he ▸ List.mem_cons_self _ _)
    rw [List.cons_append, List.findIdx?_cons, ha]
    simp only [Bool.false_eq_true, if_false]
    rw [List.findIdx?_succ, ih (fun hm => hs (List.mem_cons_of_mem _ hm))]
    rfl


lemma uint32_le_iff (a b : UInt32) : a ≤ b ↔ a.toNat ≤ b.toNat := by
  simp [UInt32.le_def, BitVec.le_def, UInt32.toNat]

lemma toNat_ofNat_small {n : Nat} (h : n < 55296) : (Char.ofNat n).toNat = n := by
  rw [Char.ofNat, dif_pos (Or.inl h)]
  rfl

lemma isUpper_iff (c : Char) :
    c.isUpper = true ↔ (65 ≤ c.toNat ∧ c.toNat ≤ 90) := by
  have e65 : (65 : UInt32).toNat = 65 := rfl
  have e90 : (90 : UInt32).toNat = 90 := rfl
  rw [Char.isUpper, Bool.and_eq_true]
  constructor
  · rintro ⟨h1, h2⟩
    have h1' : (65 : UInt32) ≤ c.val := of_decide_eq_true h1
    have h2' : c.val ≤ 90 := of_decide_eq_true h2
    exact ⟨e65 ▸ (uint32_le_iff _ _).1 h1', e90 ▸ (uint32_le_iff _ _).1 h2'⟩
  · rintro ⟨h1, h2⟩
    refine ⟨decide_eq_true ((uint32_le_iff _ _).2 ?_),
            decide_eq_true ((uint32_le_iff _ _).2 ?_)⟩
    · rw [e65]; exact h1
    · rw [e90]; exact h2

lemma isLower_iff (c : Char) :
    c.isLower = true ↔ (97 ≤ c.toNat ∧ c.toNat ≤ 122) := by
  have e97 : (97 : UInt32).toNat = 97 := rfl
  have e122 : (122 : UInt32).toNat = 122 := rfl
  rw [Char.isLower, Bool.and_eq_true]
  constructor
  · rintro ⟨h1, h2⟩
    have h1' : (97 : UInt32) ≤ c.val := of_decide_eq_true h1
    have h2' : c.val ≤ 122 := of_decide_eq_true h2
    exact ⟨e97 ▸ (uint32_le_iff _ _).1 h1', e122 ▸ (uint32_le_iff _ _).1 h2'⟩
  · rintro ⟨h1, h2⟩
    refine ⟨decide_eq_true ((uint32_le_iff _ _).2 ?_),
            decide_eq_true ((uint32_le_iff _ _).2 ?_)⟩
    · rw [e97]; exact h1
    · rw [e122]; exact h2

lemma toLower_of_upper {c : Char} (h1 : 65 ≤ c.toNat) (h2 : c.toNat ≤ 90) :
    c.toLower = Char.ofNat (c.toNat + 32) := by
  rw [Char.toLower, if_pos ⟨h1, h2⟩]

lemma toLower_of_not_upper {c : Char} (h : ¬ (65 ≤ c.toNat ∧ c.toNat ≤ 90)) :
    c.toLower = c := by
  rw [Char.toLower, if_neg h]

lemma toLower_idem (c : Char) : c.toLower.toLower = c.toLower := by
  by_cases h : 65 ≤ c.toNat ∧ c.toNat ≤ 90
  · obtain ⟨h1, h2⟩ := h
    rw [toLower_of_upper h1 h2]
    apply toLower_of_not_upper
    rw [toNat_ofNat_small (by omega)]
    omega
  · rw [toLower_of_not_upper h, toLower_of_not_upper h]

lemma isAlpha_toLower {c : Char} (h : c.isAlpha = true) :
    c.toLower.isAlpha = true := by
  rw [Char.isAlpha, Bool.or_eq_true] at h ⊢
  by_cases hu : 65 ≤ c.toNat ∧ c.toNat ≤ 90
  · obtain ⟨h1, h2⟩ := hu
    right
    rw [toLower_of_upper h1 h2, isLower_iff, toNat_ofNat_small (by omega)]
    omega
  · rwa [toLower_of_not_upper hu]

lemma schemeChar_toLower {c : Char} (h : schemeChar c = true) :
    schemeChar c.toLower = true := by
  by_cases hu : 65 ≤ c.toNat ∧ c.toNat ≤ 90
  · obtain ⟨h1, h2⟩ := hu
    have hlow : (Char.ofNat (c.toNat + 32)).isLower = true := by
      rw [isLower_iff, toNat_ofNat_small (by omega)]
      omega
    rw [toLower_of_upper h1 h2, schemeChar]
    simp [Char.isAlpha, hlow]
  · rwa [toLower_of_not_upper hu]

lemma toLower_ne_colon {c : Char} (h : schemeChar c = true) :
    (c.toLower == ':') = false := by
  have hs : schemeChar c.toLower = true := schemeChar_toLower h
  rw [beq_eq_false_iff_ne, ne_eq]
  intro he
  rw [he] at hs
  simp [schemeChar, Char.isAlpha, Char.isUpper, Char.isLower, Char.isDigit] at hs


/-- `splitOnFirst` characterized: either the character is absent and the
input passes through, or the input splits as `a ++ c :: b` with `c ∉ a`. -/
lemma splitOnFirst_eq (c : Char) (l : List Char) :
    (c ∉ l ∧ splitOnFirst c l = (l, [])) ∨
    (∃ a b, l = a ++ c :: b ∧ c ∉ a ∧ splitOnFirst c l = (a, b)) := by
  by_cases h : (l.takeWhile (· ≠ c)).length = l.length
  · left
    have hpre : l.takeWhile (· ≠ c) = l :=
      (List.takeWhile_prefix _).eq_of_length h
    have hnm : c ∉ l := by
      intro hc
      have := List.mem_takeWhile_imp (hpre.symm ▸ hc)
      simp at this
    exact ⟨hnm, splitOnFirst_of_not_mem hnm⟩
  · right
    have hdec := List.takeWhile_append_dropWhile (· ≠ c) l
    have hdw : l.dropWhile (· ≠ c) ≠ [] := by
      intro hnil
      rw [hnil, List.append_nil] at hdec
      exact h (congrArg List.length hdec)
    obtain ⟨d, dw, hd⟩ := List.exists_cons_of_ne_nil hdw
    have hdc : d = c := by
      have := List.head?_dropWhile_not (· ≠ c) l
      rw [hd] at this
      simpa using this
    rw [hdc] at hd
    refine ⟨l.takeWhile (· ≠ c), dw, ?_, ?_, ?_⟩
    · rw [← hd]
      exact hdec.symm
    · intro hc
      have := List.mem_takeWhile_imp hc
      simp at this
    · rw [splitOnFirst, if_neg h]
      refine congrArg (Prod.mk _) ?_
      set tw := l.takeWhile (· ≠ c) with htw
      have hsplit : l = (tw ++ [c]) ++ dw := by
        rw [← hdec, hd]
        simp
      rw [hsplit, show tw.length + 1 = (tw ++ [c]).length by simp,
        List.drop_left]

/-- The first component of `splitOnFirst` is always the `takeWhile`. -/
lemma splitOnFirst_parts (c : Char) (l : List Char) :
    (splitOnFirst c l).1 = l.takeWhile (· ≠ c) := by
  rw [splitOnFirst]
  by_cases h : (l.takeWhile (· ≠ c)).length = l.length
  · rw [if_pos h]
    exact ((List.takeWhile_prefix _).eq_of_length h).symm
  · rw [if_neg h]

/-- Unfolding equations for `splitScheme`. -/
lemma splitScheme_none {dflt url : List Char}
    (hf : url.findIdx? (· == ':') = none) :
    splitScheme dflt url = (dflt, url) := by
  rw [splitScheme, hf]

lemma splitScheme_some {dflt url : List Char} {i : Nat}
    (hf : url.findIdx? (· == ':') = some i) :
    splitScheme dflt url =
      if 0 < i ∧ url.head?.elim false Char.isAlpha = true
          ∧ (url.take i).all schemeChar = true
      then ((url.take i).map Char.toLower, url.drop (i + 1))
      else (dflt, url) := by
  rw [splitScheme, hf]

/-- `splitScheme` when the URL starts with a non-alphabetic character:
the default is kept. -/
lemma splitScheme_head_not_alpha {dflt url : List Char} {c : Char}
    (hh : url.head? = some c) (hc : c.isAlpha = false) :
    splitScheme dflt url = (dflt, url) := by
  cases hf : url.findIdx? (· == ':') with
  | none => exact splitScheme_none hf
  | some i =>
    rw [splitScheme_some hf, if_neg]
    rintro ⟨-, halpha, -⟩
    rw [hh] at halpha
    simp only [Option.elim] at halpha
    rw [hc] at halpha
    exact Bool.false_ne_true halpha

/-- `splitScheme` on a well-formed `scheme:rest`. -/
lemma splitScheme_of_valid {s : List Char} (dflt r : List Char)
    (hv : validScheme s) :
    splitScheme dflt (s ++ ':' :: r) = (s, r) := by
  obtain ⟨hne, halpha, hall, hlow⟩ := hv
  have hnc : ':' ∉ s := by
    intro hc
    have := List.all_eq_true.1 hall ':' hc
    simp [schemeChar, Char.isAlpha, Char.isUpper, Char.isLower,
      Char.isDigit] at this
  have htake : (s ++ ':' :: r).take s.length = s := List.take_left s _
  have hdrop : (s ++ ':' :: r).drop (s.length + 1) = r := by
    have h1 : s ++ ':' :: r = (s ++ [':']) ++ r := by simp
    rw [h1, show s.length + 1 = (s ++ [':']).length by simp, List.drop_left]
  rw [splitScheme_some (findIdx?_append_colon hnc), if_pos]
  · rw [htake, hdrop, hlow]
  · refine ⟨List.length_pos.2 hne, ?_, by rw [htake]; exact hall⟩
    cases s with
    | nil => exact absurd rfl hne
    | cons a as =>
      simp only [List.cons_append, List.head?_cons, Option.elim]
      simpa using halpha

/-- A scheme extracted by `splitScheme` with the empty default is either
empty or well-formed. -/
lemma splitScheme_valid {url s r : List Char}
    (h : splitScheme [] url = (s, r)) : s = [] ∨ validScheme s := by
  cases hf : url.findIdx? (· == ':') with
  | none =>
    rw [splitScheme_none hf] at h
    exact Or.inl (congrArg Prod.fst h).symm
  | some i =>
    rw [splitScheme_some hf] at h
    by_cases hc : 0 < i ∧ (url.head?.elim false Char.isAlpha = true)
        ∧ ((url.take i).all schemeChar = true)
    · rw [if_pos hc] at h
      obtain ⟨hi, halpha, hall⟩ := hc
      right
      have hs : s = (url.take i).map Char.toLower := (congrArg Prod.fst h).symm
      have hune : url ≠ [] := by
        intro hnil
        rw [hnil] at halpha
        simp [Option.elim] at halpha
      obtain ⟨u0, us, hu⟩ := List.exists_cons_of_ne_nil hune
      have htake : url.take i = u0 :: (us.take (i - 1)) := by
        rw [hu]
        cases i with
        | zero => exact absurd hi (by omega)
        | succ k => simp
      refine ⟨?_, ?_, ?_, ?_⟩
      · rw [hs, htake]; simp
      · rw [hs, htake]
        simp only [List.map_cons, List.head?_cons, Option.elim]
        have hu0 : u0.isAlpha = true := by
          rw [hu] at halpha
          simpa [Option.elim] using halpha
        exact isAlpha_toLower hu0
      · rw [hs, List.all_eq_true]
        intro x hx
        obtain ⟨y, hy, rfl⟩ := List.mem_map.1 hx
        exact schemeChar_toLower (List.all_eq_true.1 hall y hy)
      · rw [hs, List.map_map]
        apply List.map_congr_left
        intro a _
        exact toLower_idem a
    · rw [if_neg hc] at h
      exact Or.inl (congrArg Prod.fst h).symm


/-- `urlsplitL` in terms of its four stages. -/
lemma urlsplitL_stages {dflt url s r1 n r2 r3 f p q : List Char}
    (h1 : splitScheme dflt url = (s, r1))
    (h2 : (if r1.take 2 = ['/', '/'] then splitNetloc (r1.drop 2)
           else ([], r1)) = (n, r2))
    (h3 : splitOnFirst '#' r2 = (r3, f))
    (h4 : splitOnFirst '?' r3 = (p, q)) :
    urlsplitL dflt url = ⟨s, n, p, q, f⟩ := by
  rw [urlsplitL, h1]
  simp only [h2, h3, h4]

/-- Everything in the rest returned by `splitScheme` came from the URL. -/
lemma splitScheme_rest_subset {dflt url s r1 : List Char}
    (h : splitScheme dflt url = (s, r1)) : ∀ x ∈ r1, x ∈ url := by
  cases hf : url.findIdx? (· == ':') with
  | none =>
    rw [splitScheme_none hf] at h
    injection h with hs hr
    intro x hx
    rw [hr]
    exact hx
  | some i =>
    rw [splitScheme_some hf] at h
    by_cases hc : 0 < i ∧ (url.head?.elim false Char.isAlpha = true)
        ∧ ((url.take i).all schemeChar = true)
    · rw [if_pos hc] at h
      injection h with hs hr
      intro x hx
      rw [← hr] at hx
      exact List.drop_subset _ _ hx
    · rw [if_neg hc] at h
      injection h with hs hr
      intro x hx
      rw [hr]
      exact hx

/-- The rest after the netloc is what `dropWhile` leaves. -/
lemma splitNetloc_eq (l : List Char) :
    splitNetloc l = (l.takeWhile netlocChar, l.dropWhile netlocChar) := by
  show (l.takeWhile netlocChar, l.drop (l.takeWhile netlocChar).length) =
      (l.takeWhile netlocChar, l.dropWhile netlocChar)
  have hsplit := List.takeWhile_append_dropWhile (p := netlocChar) (l := l)
  set tw := l.takeWhile netlocChar with htw
  set dw := l.dropWhile netlocChar with hdw
  rw [← hsplit, List.drop_left]


/-- Structural facts about the components of `urlsplitL`: the netloc has
no delimiters; the path holds no `#` or `?`; when a netloc was parsed
the path is empty or starts with `/`; and a `?`-free URL has an empty
query. -/
lemma urlsplit_props (dflt url : List Char) :
    ((urlsplitL dflt url).netloc.all netlocChar = true) ∧
    ('#' ∉ (urlsplitL dflt url).path) ∧
    ('?' ∉ (urlsplitL dflt url).path) ∧
    ((urlsplitL dflt url).netloc ≠ [] →
      (urlsplitL dflt url).path = [] ∨
        (urlsplitL dflt url).path.head? = some '/') ∧
    ('?' ∉ url → (urlsplitL dflt url).query = []) := by
  rcases h1 : splitScheme dflt url with ⟨s, r1⟩
  rcases h2 : (if r1.take 2 = ['/', '/'] then splitNetloc (r1.drop 2)
      else ([], r1)) with ⟨n, r2⟩
  rcases h3 : splitOnFirst '#' r2 with ⟨r3, f⟩
  rcases h4 : splitOnFirst '?' r3 with ⟨p, q⟩
  rw [urlsplitL_stages h1 h2 h3 h4]
  have hr3 : r3 = r2.takeWhile (· ≠ '#') := by
    have hx := splitOnFirst_parts '#' r2
    rw [h3] at hx
    exact hx
  have hpp : p = r3.takeWhile (· ≠ '?') := by
    have hx := splitOnFirst_parts '?' r3
    rw [h4] at hx
    exact hx
  have hr2_sub : ∀ x ∈ r2, x ∈ url := by
    intro x hx
    apply splitScheme_rest_subset h1
    by_cases hc : r1.take 2 = ['/', '/']
    · rw [if_pos hc, splitNetloc_eq] at h2
      injection h2 with hn2 hr2
      rw [← hr2] at hx
      exact List.drop_subset 2 r1 ((List.dropWhile_suffix netlocChar).subset hx)
    · rw [if_neg hc] at h2
      injection h2 with hn2 hr2
      rwa [← hr2] at hx
  refine ⟨?_, ?_, ?_, ?_, ?_⟩
  · by_cases hc : r1.take 2 = ['/', '/']
    · rw [if_pos hc, splitNetloc_eq] at h2
      injection h2 with hn2 hr2
      rw [← hn2, List.all_eq_true]
      intro x hx
      exact List.mem_takeWhile_imp hx
    · rw [if_neg hc] at h2
      injection h2 with hn2 hr2
      rw [← hn2]
      rfl
  · intro hm
    rw [hpp] at hm
    have hm3 : '#' ∈ r3 := (List.takeWhile_prefix _).subset hm
    rw [hr3] at hm3
    have := List.mem_takeWhile_imp hm3
    simp at this
  · intro hm
    rw [hpp] at hm
    have := List.mem_takeWhile_imp hm
    simp at this
  · intro hn
    by_cases hc : r1.take 2 = ['/', '/']
    · rw [if_pos hc, splitNetloc_eq] at h2
      injection h2 with hn2 hr2
      cases hr2c : r2 with
      | nil =>
        left
        rw [hpp, hr3, hr2c]
        rfl
      | cons c0 t =>
        have hc0 : netlocChar c0 = false := by
          have hdw := List.head?_dropWhile_not netlocChar (r1.drop 2)
          rw [hr2, hr2c] at hdw
          simpa using hdw
        have hc0' : c0 = '/' ∨ c0 = '?' ∨ c0 = '#' := by
          rw [netlocChar] at hc0
          simp at hc0
          by_cases e1 : c0 = '/'
          · exact Or.inl e1
          · by_cases e2 : c0 = '?'
            · exact Or.inr (Or.inl e2)
            · exact Or.inr (Or.inr (hc0 e1 e2))
        rcases hc0' with rfl | rfl | rfl
        · right
          rw [hpp, hr3, hr2c]
          rw [List.takeWhile_cons]
          simp
        · left
          rw [hpp, hr3, hr2c]
          rw [List.takeWhile_cons]
          simp
        · left
          rw [hpp, hr3, hr2c]
          rw [List.takeWhile_cons]
          simp
    · rw [if_neg hc] at h2
      injection h2 with hn2 hr2
      exact absurd hn2.symm hn
  · intro hq
    have hq3 : '?' ∉ r3 := by
      intro hm
      have hm2 : '?' ∈ r2 := by
        rw [hr3] at hm
        exact (List.takeWhile_prefix _).subset hm
      exact hq (hr2_sub _ hm2)
    have hsp := splitOnFirst_of_not_mem hq3
    have hpair : (p, q) = (r3, ([] : List Char)) := h4.symm.trans hsp
    have h6 : q = [] := congrArg Prod.snd hpair
    exact h6


/-- `urlunsplitL` applied to a query- and fragment-free split whose
netloc branch fires and whose path is empty or `/`-headed. -/
lemma urlunsplit_netloc_form (s n p : List Char)
    (hB : n ≠ [] ∨ (s ≠ [] ∧ usesNetloc.contains s = true ∧
      p.take 2 ≠ ['/', '/']))
    (hp : p = [] ∨ p.head? = some '/') :
    urlunsplitL ⟨s, n, p, [], []⟩ = schemeColon s ++ '/' :: '/' :: (n ++ p) := by
  have hfix : ¬(p ≠ [] ∧ p.head? ≠ some '/') := by
    rintro ⟨h1, h2⟩
    rcases hp with rfl | hhead
    · exact h1 rfl
    · exact h2 hhead
  have hnil : ¬(([] : List Char) ≠ []) := by simp
  simp only [urlunsplitL]
  rw [if_neg hnil]
  rw [if_neg hnil]
  rw [if_pos hB, if_neg hfix]
  by_cases hs : s = []
  · subst hs
    rw [if_neg hnil, schemeColon, if_neg hnil]
    simp
  · rw [if_pos hs, schemeColon, if_pos hs]
    simp

/-- Re-splitting the canonical `scheme://netloc/path` shape recovers
the components. -/
lemma urlsplit_of_form (s n p : List Char)
    (hs : s = [] ∨ validScheme s)
    (hn : n.all netlocChar = true)
    (hp : p = [] ∨ p.head? = some '/')
    (hph : '#' ∉ p) (hpq : '?' ∉ p) :
    urlsplitL [] (schemeColon s ++ '/' :: '/' :: (n ++ p)) = ⟨s, n, p, [], []⟩ := by
  have hpfalse : p = [] ∨ ∃ b ys, p = b :: ys ∧ netlocChar b = false := by
    rcases hp with rfl | hhead
    · exact Or.inl rfl
    · cases p with
      | nil => exact Or.inl rfl
      | cons b ys =>
        refine Or.inr ⟨b, ys, rfl, ?_⟩
        have hb : b = '/' := by simpa using hhead
        rw [hb]
        rfl
  have h1 : splitScheme [] (schemeColon s ++ '/' :: '/' :: (n ++ p)) =
      (s, '/' :: '/' :: (n ++ p)) := by
    rcases hs with rfl | hv
    · rw [schemeColon, if_neg (by simp), List.nil_append]
      exact splitScheme_head_not_alpha rfl (by rfl)
    · rw [schemeColon, if_pos hv.1]
      have hassoc : (s ++ [':']) ++ '/' :: '/' :: (n ++ p) =
          s ++ ':' :: ('/' :: '/' :: (n ++ p)) := by simp
      rw [hassoc, splitScheme_of_valid _ _ hv]
  have h2 : (if ('/' :: '/' :: (n ++ p)).take 2 = ['/', '/']
      then splitNetloc (('/' :: '/' :: (n ++ p)).drop 2)
      else ([], '/' :: '/' :: (n ++ p))) = (n, p) := by
    rw [if_pos (by simp)]
    show splitNetloc (n ++ p) = (n, p)
    rw [splitNetloc_eq]
    have htw : (n ++ p).takeWhile netlocChar = n :=
      takeWhile_append_head_false (List.all_eq_true.1 hn) hpfalse
    have hdw : (n ++ p).dropWhile netlocChar = p := by
      rw [List.dropWhile_append]
      have hdn : n.dropWhile netlocChar = [] :=
        List.dropWhile_eq_nil_iff.2 (List.all_eq_true.1 hn)
      rw [hdn]
      simp only [List.isEmpty_nil, if_true]
      rcases hpfalse with rfl | ⟨b, ys, rfl, hb⟩
      · rfl
      · rw [List.dropWhile_cons, hb]
        simp
    rw [htw, hdw]
  exact urlsplitL_stages h1 h2 (splitOnFirst_of_not_mem hph)
    (splitOnFirst_of_not_mem hpq)

/-- The last character of the re-assembled URL is the last of the path,
or of the netloc when the path is empty. -/
lemma assembled_getLast (s n p : List Char) (hn : n ≠ []) :
    (schemeColon s ++ '/' :: '/' :: (n ++ p)).getLast? =
      if p = [] then n.getLast? else p.getLast? := by
  rw [List.getLast?_append]
  have hnp : n ++ p ≠ [] := fun hcon => hn (List.append_eq_nil.1 hcon).1
  have h1 : ('/' :: '/' :: (n ++ p)).getLast? = (n ++ p).getLast? := by
    obtain ⟨c, cs, hc⟩ := List.exists_cons_of_ne_nil hnp
    rw [hc]
    rfl
  rw [h1, List.getLast?_append]
  by_cases hp : p = []
  · rw [if_pos hp, hp]
    obtain ⟨c, hc⟩ := Option.isSome_iff_exists.1 (List.getLast?_isSome.2 hn)
    rw [hc]
    rfl
  · rw [if_neg hp]
    obtain ⟨c, hc⟩ := Option.isSome_iff_exists.1 (List.getLast?_isSome.2 hp)
    rw [hc]
    rfl

/-- Unfolding equation for `normalizeUrlL` once the split of the input
is known. -/
lemma normalizeUrlL_eq (url s n p q f : List Char)
    (h : urlsplitL [] url = ⟨s, n, p, q, f⟩) :
    normalizeUrlL url =
      (if endsWithChar (urlunsplitL ⟨s, n, p, q, []⟩) '/' ∧
          s.length + 3 < (urlunsplitL ⟨s, n, p, q, []⟩).length
       then rstripSlash (urlunsplitL ⟨s, n, p, q, []⟩)
       else urlunsplitL ⟨s, n, p, q, []⟩) := by
  rw [normalizeUrlL, h]

/-- The closed form of `normalize_url` on a `?`-free URL with nonempty
netloc: scheme, `//`, netloc, and the path with its trailing slashes
removed. -/
lemma normalize_closed_form (u : List Char)
    (hq : '?' ∉ u)
    (hnet : (urlsplitL [] u).netloc ≠ []) :
    normalizeUrlL u = schemeColon (urlsplitL [] u).scheme ++ '/' :: '/' ::
      ((urlsplitL [] u).netloc ++ rstripSlash (urlsplitL [] u).path) := by
  obtain ⟨hall, hph, hpq, hshape, hquery⟩ := urlsplit_props [] u
  have hqnil : (urlsplitL [] u).query = [] := hquery hq
  have hpshape := hshape hnet
  rcases hw : urlsplitL [] u with ⟨S, N, P, Q, F⟩
  rw [hw] at hall hph hpq hqnil hpshape hnet
  dsimp only at hall hph hpq hqnil hpshape hnet
  subst hqnil
  have hNlast : N.getLast? ≠ some '/' := by
    intro hc
    obtain ⟨hne2, heq2⟩ := List.mem_getLast?_eq_getLast (l := N) (Option.mem_def.2 hc)
    have hmem : '/' ∈ N := heq2 ▸ List.getLast_mem hne2
    have hslash := List.all_eq_true.1 hall '/' hmem
    simp [netlocChar] at hslash
  have hunsplit : urlunsplitL ⟨S, N, P, [], []⟩ =
      schemeColon S ++ '/' :: '/' :: (N ++ P) :=
    urlunsplit_netloc_form S N P (Or.inl hnet) hpshape
  rw [normalizeUrlL_eq u S N P [] F hw, hunsplit]
  by_cases hplast : P.getLast? = some '/'
  · have hpne : P ≠ [] := by
      intro hc
      rw [hc] at hplast
      simp at hplast
    have hends : endsWithChar (schemeColon S ++ '/' :: '/' :: (N ++ P)) '/' = true := by
      rw [endsWithChar, assembled_getLast S N P hnet, if_neg hpne, hplast]
      simp
    have hlen : S.length + 3 <
        (schemeColon S ++ '/' :: '/' :: (N ++ P)).length := by
      have hsl : S.length ≤ (schemeColon S).length := by
        rw [schemeColon]
        by_cases hs0 : S = []
        · simp [hs0]
        · rw [if_pos hs0]
          simp
      have hN1 : 1 ≤ N.length := List.length_pos.2 hnet
      have hP1 : 1 ≤ P.length := List.length_pos.2 hpne
      simp only [List.length_append, List.length_cons]
      omega
    rw [if_pos ⟨hends, hlen⟩]
    have hsplit2 : schemeColon S ++ '/' :: '/' :: (N ++ P) =
        (schemeColon S ++ '/' :: '/' :: N) ++ P := by simp
    rw [hsplit2, rstripSlash_append]
    have hxlast : (schemeColon S ++ '/' :: '/' :: N).getLast? = N.getLast? := by
      have hg := assembled_getLast S N [] hnet
      simpa using hg
    by_cases hrp : rstripSlash P = []
    · rw [if_pos hrp, rstripSlash_eq_self (hxlast ▸ hNlast), hrp]
      simp
    · rw [if_neg hrp]
      simp
  · have hends : endsWithChar (schemeColon S ++ '/' :: '/' :: (N ++ P)) '/' = false := by
      rw [endsWithChar, assembled_getLast S N P hnet]
      by_cases hpe : P = []
      · rw [if_pos hpe]
        simpa using hNlast
      · rw [if_neg hpe]
        simpa using hplast
    rw [if_neg (fun hcon => by rw [hends] at hcon; exact Bool.false_ne_true hcon.1)]
    rw [rstripSlash_eq_self hplast]

/-- The field of a literal `String.mk`. -/
lemma data_mk (l : List Char) : (⟨l⟩ : String).data = l := rfl

/-- The scheme component `urlsplitL` extracts (default `[]`) is empty or
a valid lower-case scheme. -/
lemma urlsplit_scheme_valid (url : List Char) :
    (urlsplitL [] url).scheme = [] ∨ validScheme (urlsplitL [] url).scheme := by
  rcases h1 : splitScheme [] url with ⟨s, r1⟩
  rcases h2 : (if r1.take 2 = ['/', '/'] then splitNetloc (r1.drop 2)
      else ([], r1)) with ⟨n, r2⟩
  rcases h3 : splitOnFirst '#' r2 with ⟨r3, f⟩
  rcases h4 : splitOnFirst '?' r3 with ⟨p, q⟩
  rw [urlsplitL_stages h1 h2 h3 h4]
  exact splitScheme_valid h1

/-- `normalize_url` (code-point level) is idempotent whenever the input
has no `'?'` and a nonempty netloc. -/
lemma normalizeUrlL_idem_of (u : List Char)
    (hq : '?' ∉ u)
    (hnet : (urlsplitL [] u).netloc ≠ []) :
    normalizeUrlL (normalizeUrlL u) = normalizeUrlL u := by
  obtain ⟨hall, hph, hpq, hshape, -⟩ := urlsplit_props [] u
  have hpshape := hshape hnet
  have hSvalid := urlsplit_scheme_valid u
  have hcf := normalize_closed_form u hq hnet
  rcases hw : urlsplitL [] u with ⟨S, N, P, Q, F⟩
  rw [hw] at hall hph hpq hpshape hnet hSvalid hcf
  dsimp only at hall hph hpq hpshape hnet hSvalid hcf
  have hp2 : rstripSlash P = [] ∨ (rstripSlash P).head? = some '/' := by
    by_cases hrp : rstripSlash P = []
    · exact Or.inl hrp
    · right
      rcases hpshape with rfl | hhead
      · exact absurd rstripSlash_nil hrp
      · obtain ⟨c, cs, hc⟩ := List.exists_cons_of_ne_nil hrp
        obtain ⟨t, ht⟩ := rstripSlash_pre P
        rw [hc] at ht ⊢
        have hchar : P.head? = some c := by
          rw [← ht]
          rfl
        exact hchar.symm.trans hhead
  have hph2 : '#' ∉ rstripSlash P :=
    fun hmem => hph ((rstripSlash_pre P).subset hmem)
  have hpq2 : '?' ∉ rstripSlash P :=
    fun hmem => hpq ((rstripSlash_pre P).subset hmem)
  have hsplitv : urlsplitL [] (schemeColon S ++ '/' :: '/' :: (N ++ rstripSlash P)) =
      ⟨S, N, rstripSlash P, [], []⟩ :=
    urlsplit_of_form S N (rstripSlash P) hSvalid hall hp2 hph2 hpq2
  have hqv : '?' ∉ schemeColon S ++ '/' :: '/' :: (N ++ rstripSlash P) := by
    intro hmem
    rcases List.mem_append.1 hmem with h | h
    · rcases hSvalid with rfl | hv
      · simp [schemeColon] at h
      · rw [schemeColon, if_pos hv.1] at h
        rcases List.mem_append.1 h with h2 | h2
        · exact absurd (List.all_eq_true.1 hv.2.2.1 '?' h2) (by decide)
        · simp at h2
    · rcases List.mem_cons.1 h with h2 | h2
      · exact absurd h2 (by decide)
      · rcases List.mem_cons.1 h2 with h3 | h3
        · exact absurd h3 (by decide)
        · rcases List.mem_append.1 h3 with h4 | h4
          · exact absurd (List.all_eq_true.1 hall '?' h4) (by decide)
          · exact hpq2 h4
  rw [hcf]
  rw [normalize_closed_form _ hqv (by rw [hsplitv]; exact hnet)]
  rw [hsplitv]
  dsimp only
  rw [rstripSlash_idem]

/-- C7 (amended): URL normalization is idempotent on every URL that
contains no `'?'` and whose parsed authority (netloc) component is
nonempty: `normalize_url (normalize_url u) = normalize_url u`. On
arbitrary strings idempotence fails (see the counterexample theorem for
this claim). -/
theorem normalize_idempotent_on_netloc_urls (u : String)
    (hq : '?' ∉ u.data)
    (hnet : (urlsplitL [] u.data).netloc ≠ []) :
    normalize_url (normalize_url u) = normalize_url u := by
  unfold normalize_url
  rw [data_mk]
  exact congrArg String.mk (normalizeUrlL_idem_of u.data hq hnet)

/-- Witness for the amended C7 theorem at the concrete URL
`https://x.com/a/`. -/
theorem normalize_idempotent_on_netloc_urls_witness :
    ('?' ∉ ("https://x.com/a/" : String).data) ∧
    ((urlsplitL [] ("https://x.com/a/" : String).data).netloc ≠ []) ∧
    normalize_url (normalize_url "https://x.com/a/") =
      normalize_url "https://x.com/a/" :=
  ⟨by decide, by decide,
    normalize_idempotent_on_netloc_urls "https://x.com/a/" (by decide) (by decide)⟩

/-- Every list is its slash-stripped form followed by slashes. -/
lemma rstripSlash_decomp (w : List Char) :
    ∃ t, w = rstripSlash w ++ t ∧ ∀ c ∈ t, c = '/' := by
  refine ⟨(w.reverse.takeWhile (· == '/')).reverse, ?_, ?_⟩
  · rw [rstripSlash, ← List.reverse_append, List.takeWhile_append_dropWhile,
      List.reverse_reverse]
  · intro c hc
    have hp := List.mem_takeWhile_imp (List.mem_reverse.1 hc)
    simpa using hp

/-- `takeWhile` ignores a tail whose head already fails the predicate. -/
lemma takeWhile_append_stop {p : Char → Bool} {x y : List Char}
    (hy : y = [] ∨ ∃ b ys, y = b :: ys ∧ p b = false) :
    (x ++ y).takeWhile p = x.takeWhile p := by
  induction x with
  | nil =>
    rcases hy with rfl | ⟨b, ys, rfl, hb⟩
    · rfl
    · simp [List.takeWhile_cons, hb]
  | cons a as ih =>
    rw [List.cons_append, List.takeWhile_cons, List.takeWhile_cons]
    by_cases hpa : p a = true
    · rw [if_pos hpa, if_pos hpa, ih]
    · rw [if_neg hpa, if_neg hpa]

/-- `dropWhile` stops no later than a tail whose head fails the
predicate. -/
lemma dropWhile_append_stop {p : Char → Bool} {x y : List Char}
    (hy : y = [] ∨ ∃ b ys, y = b :: ys ∧ p b = false) :
    (x ++ y).dropWhile p = x.dropWhile p ++ y := by
  rw [List.dropWhile_append]
  by_cases h : (x.dropWhile p).isEmpty = true
  · rw [if_pos h, List.isEmpty_iff.1 h, List.nil_append]
    rcases hy with rfl | ⟨b, ys, rfl, hb⟩
    · rfl
    · rw [List.dropWhile_cons, if_neg (by rw [hb]; exact Bool.false_ne_true)]
  · rw [if_neg h]

/-- `splitOnFirst` at an explicit first occurrence. -/
lemma splitOnFirst_form {c : Char} {a b : List Char} (ha : c ∉ a) :
    splitOnFirst c (a ++ c :: b) = (a, b) := by
  have htw : (a ++ c :: b).takeWhile (· ≠ c) = a := by
    apply takeWhile_append_head_false
    · intro x hx
      simp only [ne_eq, decide_eq_true_eq]
      exact fun he => ha (he ▸ hx)
    · refine Or.inr ⟨c, b, rfl, ?_⟩
      simp
  have hlen : ((a ++ c :: b).takeWhile (· ≠ c)).length ≠ (a ++ c :: b).length := by
    rw [htw, List.length_append, List.length_cons]
    omega
  rw [splitOnFirst, if_neg hlen, htw]
  refine congrArg (Prod.mk _) ?_
  have hsp : a ++ c :: b = (a ++ [c]) ++ b := by simp
  rw [hsp, show a.length + 1 = (a ++ [c]).length by simp, List.drop_left]

/-- `findIdx?` over an append when neither part matches. -/
lemma findIdx?_append_none {p : Char → Bool} {x y : List Char}
    (hx : x.findIdx? p = none) (hy : y.findIdx? p = none) :
    (x ++ y).findIdx? p = none := by
  rw [List.findIdx?_eq_none_iff] at hx hy ⊢
  intro c hc
  rcases List.mem_append.1 hc with h | h
  · exact hx c h
  · exact hy c h

/-- `findIdx?` over an append when the first part matches. -/
lemma findIdx?_append_some {p : Char → Bool} {x y : List Char} {i : Nat}
    (hx : x.findIdx? p = some i) :
    (x ++ y).findIdx? p = some i := by
  induction x generalizing i with
  | nil => simp at hx
  | cons a as ih =>
    rw [List.findIdx?_cons] at hx
    rw [List.cons_append, List.findIdx?_cons]
    by_cases hpa : p a = true
    · rw [if_pos hpa] at hx ⊢
      exact hx
    · rw [if_neg hpa] at hx ⊢
      rw [List.findIdx?_succ] at hx ⊢
      cases hfi : as.findIdx? p with
      | none =>
        rw [hfi] at hx
        simp at hx
      | some j =>
        rw [hfi] at hx
        rw [ih hfi]
        exact hx

/-- A successful `findIdx?` returns an index inside the list. -/
lemma findIdx?_lt_length {p : Char → Bool} :
    ∀ {x : List Char} {i : Nat}, x.findIdx? p = some i → i < x.length := by
  intro x
  induction x with
  | nil =>
    intro i h
    simp at h
  | cons a as ih =>
    intro i h
    rw [List.findIdx?_cons] at h
    by_cases hpa : p a = true
    · rw [if_pos hpa] at h
      injection h with h0
      rw [List.length_cons]
      omega
    · rw [if_neg hpa] at h
      rw [List.findIdx?_succ] at h
      cases hfi : as.findIdx? p with
      | none =>
        rw [hfi] at h
        simp at h
      | some j =>
        rw [hfi] at h
        simp only [Option.map_some'] at h
        injection h with h1
        have hj := ih hfi
        rw [List.length_cons]
        omega

/-- Appending colon-free text commutes with scheme extraction. -/
lemma splitScheme_append (w t : List Char) (htc : ':' ∉ t) :
    splitScheme [] (w ++ t) =
      ((splitScheme [] w).1, (splitScheme [] w).2 ++ t) := by
  have htn : t.findIdx? (· == ':') = none := by
    rw [List.findIdx?_eq_none_iff]
    intro c hc
    simp only [beq_eq_false_iff_ne, ne_eq]
    exact fun he => htc (he ▸ hc)
  cases hf : w.findIdx? (· == ':') with
  | none =>
    rw [splitScheme_none hf, splitScheme_none (findIdx?_append_none hf htn)]
  | some i =>
    have hi : i < w.length := findIdx?_lt_length hf
    rw [splitScheme_some hf, splitScheme_some (findIdx?_append_some hf)]
    have hw : w ≠ [] := by
      intro hcon
      rw [hcon] at hi
      simp at hi
    have hhead : (w ++ t).head? = w.head? := by
      cases w with
      | nil => exact absurd rfl hw
      | cons a as => rfl
    have htake : (w ++ t).take i = w.take i :=
      List.take_append_of_le_length (le_of_lt hi)
    have hdrop : (w ++ t).drop (i + 1) = w.drop (i + 1) ++ t :=
      List.drop_append_of_le_length hi
    rw [hhead, htake, hdrop]
    by_cases hcond : 0 < i ∧ w.head?.elim false Char.isAlpha = true
        ∧ (w.take i).all schemeChar = true
    · rw [if_pos hcond, if_pos hcond]
    · rw [if_neg hcond, if_neg hcond]

/-- A list of slashes has no netloc characters to take. -/
lemma takeWhile_slashes {l : List Char} (h : ∀ c ∈ l, c = '/') :
    l.takeWhile netlocChar = [] := by
  cases l with
  | nil => rfl
  | cons b ys =>
    rw [List.takeWhile_cons, h b (List.mem_cons_self _ _),
      if_neg (by decide)]

/-- Appending trailing slashes to a URL whose extended form still has a
nonempty netloc changes neither scheme nor netloc, and changes the path
only up to trailing slashes. -/
lemma urlsplit_append_slashes (w t : List Char)
    (hq : '?' ∉ w)
    (ht : ∀ c ∈ t, c = '/')
    (hnet : (urlsplitL [] (w ++ t)).netloc ≠ []) :
    (urlsplitL [] w).scheme = (urlsplitL [] (w ++ t)).scheme ∧
    (urlsplitL [] w).netloc = (urlsplitL [] (w ++ t)).netloc ∧
    (urlsplitL [] w).netloc ≠ [] ∧
    rstripSlash (urlsplitL [] w).path =
      rstripSlash (urlsplitL [] (w ++ t)).path := by
  have htc : ':' ∉ t := fun hc => absurd (ht ':' hc) (by decide)
  have htq : '?' ∉ t := fun hc => absurd (ht '?' hc) (by decide)
  have hth : '#' ∉ t := fun hc => absurd (ht '#' hc) (by decide)
  have htslash : t = [] ∨ ∃ b ys, t = b :: ys ∧ netlocChar b = false := by
    cases t with
    | nil => exact Or.inl rfl
    | cons b ys =>
      refine Or.inr ⟨b, ys, rfl, ?_⟩
      rw [ht b (List.mem_cons_self _ _)]
      decide
  have hsch := splitScheme_append w t htc
  rcases h1 : splitScheme [] w with ⟨s, r1⟩
  rw [h1] at hsch
  dsimp only at hsch
  have hsub1 := splitScheme_rest_subset h1
  cases r1 with
  | nil =>
    exfalso
    rw [List.nil_append] at hsch
    rcases h2 : (if t.take 2 = ['/', '/'] then splitNetloc (t.drop 2)
        else ([], t)) with ⟨n2, r2⟩
    rcases h3 : splitOnFirst '#' r2 with ⟨r3, f2⟩
    rcases h4 : splitOnFirst '?' r3 with ⟨p2, q2⟩
    rw [urlsplitL_stages hsch h2 h3 h4] at hnet
    dsimp only at hnet
    apply hnet
    by_cases hcond : t.take 2 = ['/', '/']
    · rw [if_pos hcond, splitNetloc_eq] at h2
      injection h2 with hn hr
      rw [takeWhile_slashes (fun c hc => ht c (List.drop_subset _ _ hc))] at hn
      exact hn.symm
    · rw [if_neg hcond] at h2
      injection h2 with hn hr
      exact hn.symm
  | cons c1 r1t =>
    cases r1t with
    | nil =>
      exfalso
      rw [List.singleton_append] at hsch
      rcases h2 : (if (c1 :: t).take 2 = ['/', '/']
          then splitNetloc ((c1 :: t).drop 2)
          else ([], c1 :: t)) with ⟨n2, r2⟩
      rcases h3 : splitOnFirst '#' r2 with ⟨r3, f2⟩
      rcases h4 : splitOnFirst '?' r3 with ⟨p2, q2⟩
      rw [urlsplitL_stages hsch h2 h3 h4] at hnet
      dsimp only at hnet
      apply hnet
      by_cases hcond : (c1 :: t).take 2 = ['/', '/']
      · rw [if_pos hcond, splitNetloc_eq] at h2
        injection h2 with hn hr
        have hdd : (c1 :: t).drop 2 = t.drop 1 := rfl
        rw [hdd, takeWhile_slashes (fun c hc => ht c (List.drop_subset _ _ hc))] at hn
        exact hn.symm
      · rw [if_neg hcond] at h2
        injection h2 with hn hr
        exact hn.symm
    | cons c2 r =>
      have hr1t : ((c1 :: c2 :: r : List Char) ++ t) = c1 :: c2 :: (r ++ t) := rfl
      rw [hr1t] at hsch
      by_cases hcond : ([c1, c2] : List Char) = ['/', '/']
      · have h2w : (if (c1 :: c2 :: r).take 2 = ['/', '/']
            then splitNetloc ((c1 :: c2 :: r).drop 2)
            else ([], c1 :: c2 :: r)) =
            (r.takeWhile netlocChar, r.dropWhile netlocChar) := by
          rw [if_pos (show (c1 :: c2 :: r).take 2 = ['/', '/'] from hcond)]
          have hd : (c1 :: c2 :: r).drop 2 = r := rfl
          rw [hd, splitNetloc_eq]
        have h2t : (if (c1 :: c2 :: (r ++ t)).take 2 = ['/', '/']
            then splitNetloc ((c1 :: c2 :: (r ++ t)).drop 2)
            else ([], c1 :: c2 :: (r ++ t))) =
            (r.takeWhile netlocChar, r.dropWhile netlocChar ++ t) := by
          rw [if_pos (show (c1 :: c2 :: (r ++ t)).take 2 = ['/', '/'] from hcond)]
          have hd : (c1 :: c2 :: (r ++ t)).drop 2 = r ++ t := rfl
          rw [hd, splitNetloc_eq, takeWhile_append_stop htslash,
            dropWhile_append_stop htslash]
        have hsubr : ∀ x, x ∈ r.dropWhile netlocChar → x ∈ w := by
          intro x hx
          have hxr : x ∈ r := (List.dropWhile_suffix netlocChar).subset hx
          exact hsub1 x (List.mem_cons_of_mem _ (List.mem_cons_of_mem _ hxr))
        rcases splitOnFirst_eq '#' (r.dropWhile netlocChar) with
          ⟨hns, hsp⟩ | ⟨a, b, hform, hna, hsp⟩
        · have hsp2 : splitOnFirst '#' (r.dropWhile netlocChar ++ t) =
              (r.dropWhile netlocChar ++ t, []) := by
            apply splitOnFirst_of_not_mem
            intro hm
            rcases List.mem_append.1 hm with hm | hm
            · exact hns hm
            · exact hth hm
          have hqr : '?' ∉ r.dropWhile netlocChar :=
            fun hm => hq (hsubr _ hm)
          have hq4 : splitOnFirst '?' (r.dropWhile netlocChar) =
              (r.dropWhile netlocChar, []) := splitOnFirst_of_not_mem hqr
          have hq4t : splitOnFirst '?' (r.dropWhile netlocChar ++ t) =
              (r.dropWhile netlocChar ++ t, []) := by
            apply splitOnFirst_of_not_mem
            intro hm
            rcases List.mem_append.1 hm with hm | hm
            · exact hqr hm
            · exact htq hm
          rw [urlsplitL_stages hsch h2t hsp2 hq4t] at hnet
          dsimp only at hnet
          rw [urlsplitL_stages h1 h2w hsp hq4,
            urlsplitL_stages hsch h2t hsp2 hq4t]
          dsimp only
          refine ⟨rfl, rfl, hnet, ?_⟩
          rw [rstripSlash_append, if_pos (rstripSlash_all_slash ht)]
        · have hsp2 : splitOnFirst '#' (r.dropWhile netlocChar ++ t) =
              (a, b ++ t) := by
            rw [hform]
            have hre : (a ++ '#' :: b) ++ t = a ++ '#' :: (b ++ t) := by simp
            rw [hre]
            exact splitOnFirst_form hna
          have hqa : '?' ∉ a := by
            intro hm
            apply hq
            apply hsubr
            rw [hform]
            exact List.mem_append.2 (Or.inl hm)
          have hq4 : splitOnFirst '?' a = (a, []) := splitOnFirst_of_not_mem hqa
          rw [urlsplitL_stages hsch h2t hsp2 hq4] at hnet
          dsimp only at hnet
          rw [urlsplitL_stages h1 h2w hsp hq4,
            urlsplitL_stages hsch h2t hsp2 hq4]
          dsimp only
          exact ⟨rfl, rfl, hnet, rfl⟩
      · exfalso
        have h2t : (if (c1 :: c2 :: (r ++ t)).take 2 = ['/', '/']
            then splitNetloc ((c1 :: c2 :: (r ++ t)).drop 2)
            else ([], c1 :: c2 :: (r ++ t))) = ([], c1 :: c2 :: (r ++ t)) := by
          rw [if_neg (show ¬(c1 :: c2 :: (r ++ t)).take 2 = ['/', '/'] from hcond)]
        rcases h3 : splitOnFirst '#' (c1 :: c2 :: (r ++ t)) with ⟨r3, f2⟩
        rcases h4 : splitOnFirst '?' r3 with ⟨p2, q2⟩
        rw [urlsplitL_stages hsch h2t h3 h4] at hnet
        dsimp only at hnet
        exact hnet rfl

/-- Normalization only sees the slash-stripped input: for `?`-free
URLs with nonempty netloc, `normalizeUrlL` factors through
`rstripSlash`. -/
lemma normalizeUrlL_rstrip (w : List Char)
    (hq : '?' ∉ w) (hnet : (urlsplitL [] w).netloc ≠ []) :
    normalizeUrlL w = normalizeUrlL (rstripSlash w) := by
  obtain ⟨t, hdecomp, ht⟩ := rstripSlash_decomp w
  have hqb : '?' ∉ rstripSlash w :=
    fun hm => hq ((rstripSlash_pre w).subset hm)
  have hnet2 : (urlsplitL [] (rstripSlash w ++ t)).netloc ≠ [] := by
    rw [← hdecomp]
    exact hnet
  obtain ⟨hs, hn, hnb, hp⟩ := urlsplit_append_slashes (rstripSlash w) t hqb ht hnet2
  rw [← hdecomp] at hs hn hp
  rw [normalize_closed_form w hq hnet,
    normalize_closed_form (rstripSlash w) hqb hnb, hs, hn, hp]

/-- C10 (amended): `normalize_url` removes all consecutive trailing
slashes, so for `?`-free inputs with nonempty netloc the canonical
crawl node depends only on the slash-stripped string: any two such URLs
differing only in trailing slashes normalize identically. On general
inputs (empty netloc, or a query) this fails (see the counterexample
theorem for this claim). -/
theorem trailing_slash_classes (u v : String)
    (hqu : '?' ∉ u.data) (hnu : (urlsplitL [] u.data).netloc ≠ [])
    (hqv : '?' ∉ v.data) (hnv : (urlsplitL [] v.data).netloc ≠ [])
    (h : rstripSlash u.data = rstripSlash v.data) :
    normalize_url u = normalize_url v := by
  unfold normalize_url
  refine congrArg String.mk ?_
  rw [normalizeUrlL_rstrip u.data hqu hnu, normalizeUrlL_rstrip v.data hqv hnv, h]

/-- Witness for the amended C10 theorem: `http://x.com/a///` and
`http://x.com/a` fall in one trailing-slash class and normalize to the
same node. -/
theorem trailing_slash_classes_witness :
    rstripSlash ("http://x.com/a///" : String).data =
      rstripSlash ("http://x.com/a" : String).data ∧
    normalize_url "http://x.com/a///" = normalize_url "http://x.com/a" ∧
    normalize_url "http://x.com/a///" = "http://x.com/a" :=
  ⟨by decide,
    trailing_slash_classes "http://x.com/a///" "http://x.com/a"
      (by decide) (by decide) (by decide) (by decide) (by decide),
    by decide⟩

/-- Reachability within a step bound is monotone in the bound. -/
lemma reachIn_mono (ch : String → List String) (root : String) :
    ∀ {m n : Nat} {v : String}, m ≤ n → reachIn ch root m v → reachIn ch root n v := by
  intro m n
  induction n with
  | zero =>
    intro v h hr
    have hm : m = 0 := Nat.le_zero.1 h
    subst hm
    exact hr
  | succ k ih =>
    intro v h hr
    by_cases hm : m ≤ k
    · exact Or.inl (ih hm hr)
    · have heq : m = k + 1 := Nat.le_antisymm h (Nat.not_le.1 hm)
      subst heq
      exact hr

/-- A reachable node is reachable within its depth. -/
lemma depth_reachIn {ch : String → List String} {root v : String}
    (h : Reachable ch root v) : reachIn ch root (depth ch root v) v := by
  obtain ⟨n, hn⟩ := h
  have hne : Set.Nonempty { k | reachIn ch root k v } := ⟨n, hn⟩
  exact Nat.sInf_mem hne

/-- Any step bound witnessing reachability bounds the depth. -/
lemma depth_le {ch : String → List String} {root v : String} {n : Nat}
    (h : reachIn ch root n v) : depth ch root v ≤ n :=
  Nat.sInf_le h

/-- The root has depth `0`. -/
lemma depth_root (ch : String → List String) (root : String) :
    depth ch root root = 0 :=
  Nat.le_zero.1 (depth_le (show reachIn ch root 0 root from rfl))

/-- Children of reachable nodes are reachable. -/
lemma reachable_child {ch : String → List String} {root u v : String}
    (hu : Reachable ch root u) (hv : v ∈ ch u) : Reachable ch root v := by
  obtain ⟨n, hn⟩ := hu
  exact ⟨n + 1, Or.inr ⟨u, hn, hv⟩⟩

/-- A child is at most one level deeper than its parent. -/
lemma depth_child_le {ch : String → List String} {root u v : String}
    (hu : Reachable ch root u) (hv : v ∈ ch u) :
    depth ch root v ≤ depth ch root u + 1 :=
  depth_le (Or.inr ⟨u, depth_reachIn hu, hv⟩)

/-- A node at depth `n + 1` has a parent at depth at most `n`. -/
lemma depth_parent {ch : String → List String} {root v : String} {n : Nat}
    (hv : Reachable ch root v) (hd : depth ch root v = n + 1) :
    ∃ p, Reachable ch root p ∧ depth ch root p ≤ n ∧ v ∈ ch p := by
  have hr := depth_reachIn hv
  rw [hd] at hr
  rcases hr with hr | ⟨p, hp, hmem⟩
  · exact absurd (depth_le hr) (by rw [hd]; omega)
  · exact ⟨p, ⟨n, hp⟩, depth_le hp, hmem⟩

/-- The only reachable node of depth `0` is the root. -/
lemma depth_zero_eq_root {ch : String → List String} {root v : String}
    (hv : Reachable ch root v) (h : depth ch root v = 0) : v = root := by
  have hr := depth_reachIn hv
  rw [h] at hr
  exact hr

/-- A list's optional head is a member. -/
lemma head?_mem_list {a : String} {l : List String} (h : l.head? = some a) :
    a ∈ l := by
  cases l with
  | nil => exact absurd h (by simp)
  | cons x xs =>
    injection h with h
    exact h ▸ List.mem_cons_self _ _

/-- The breadth-first invariant holds of the seeded state. -/
lemma BFSInv_seed (ch : String → List String) (ns : String) :
    BFSInv ch ns (seedState ns) := by
  refine ⟨rfl, rfl, ?_, ?_, ?_, ?_, ?_, ?_, ?_, ?_⟩
  · intro v hv
    rw [List.mem_singleton.1 hv]
    exact ⟨0, rfl⟩
  · exact List.sorted_singleton _
  · intro u hu v hv
    injection hu with hu
    rw [List.mem_singleton.1 hv, ← hu]
    omega
  · intro u hu w hw hlt
    injection hu with hu
    rw [← hu, depth_root] at hlt
    omega
  · intro u hu w hw hle
    injection hu with hu
    rw [← hu, depth_root] at hle
    rw [depth_zero_eq_root hw (Nat.le_zero.1 hle)]
    exact List.mem_singleton.2 rfl
  · intro p hp
    simp [seedState] at hp
  · simp [seedState]
  · intro u hu
    simp [seedState]

/-- One visiting step of the crawl loop preserves the breadth-first
invariant: the dequeued head `c` moves to the visited log and its newly
admitted children (all of depth exactly `depth c + 1`) are appended. -/
lemma BFSInv_step (ch : String → List String) (root : String) (st : CrawlState)
    (c : String) (rest : List String) (z : Nat)
    (hq : st.queue = c :: rest)
    (hInv : BFSInv ch root st) :
    BFSInv ch root
      { queue := rest ++ newOnes st.discovered (ch c)
        visited := st.visited ++ [c]
        discovered := st.discovered ++ newOnes st.discovered (ch c)
        sink := st.sink ++ newOnes st.discovered (ch c)
        enqueued := st.enqueued ++ newOnes st.discovered (ch c)
        fetched := st.fetched ++ [c]
        sleeps := z } := by
  obtain ⟨hsk, hdk, hreach, hsort, hbound, hshallow, hdeep, hchild, hqn, hqv⟩ := hInv
  have hcq : c ∈ st.queue := by
    rw [hq]
    exact List.mem_cons_self _ _
  have hcs : c ∈ st.sink := by
    rw [hsk]
    exact List.mem_append_right _ hcq
  have hrc : Reachable ch root c := hreach c hcs
  have hhead : st.queue.head? = some c := by
    rw [hq]
    rfl
  have hKsub : ∀ a ∈ newOnes st.discovered (ch c), a ∈ ch c :=
    fun a ha => (newOnes_mem _ _ a ha).1
  have hKnd : ∀ a ∈ newOnes st.discovered (ch c), a ∉ st.discovered :=
    fun a ha => (newOnes_mem _ _ a ha).2
  have hKreach : ∀ a ∈ newOnes st.discovered (ch c), Reachable ch root a :=
    fun a ha => reachable_child hrc (hKsub a ha)
  have hKdepth : ∀ a ∈ newOnes st.discovered (ch c),
      depth ch root a = depth ch root c + 1 := by
    intro a ha
    have hle := depth_child_le hrc (hKsub a ha)
    have hgt : ¬ depth ch root a ≤ depth ch root c := by
      intro hle2
      exact hKnd a ha (hdeep c hhead a (hKreach a ha) hle2)
    omega
  have hsinkdepth : ∀ v ∈ st.sink, depth ch root v ≤ depth ch root c + 1 :=
    hbound c hhead
  have hrestge : ∀ x ∈ rest, depth ch root c ≤ depth ch root x := by
    have hsuf : List.Sublist (c :: rest) st.sink := by
      rw [hsk, hq]
      exact (List.suffix_append _ _).sublist
    have hsc := List.Pairwise.sublist hsuf hsort
    exact (List.sorted_cons.1 hsc).1
  have hrestle : ∀ x ∈ rest, depth ch root x ≤ depth ch root c + 1 := by
    intro x hx
    apply hsinkdepth
    rw [hsk, hq]
    exact List.mem_append_right _ (List.mem_cons_of_mem _ hx)
  have hrestD : ∀ x ∈ rest, x ∈ st.discovered := by
    intro x hx
    rw [hdk, hsk, hq]
    exact List.mem_append_right _ (List.mem_cons_of_mem _ hx)
  have hVD : ∀ x ∈ st.visited, x ∈ st.discovered := by
    intro x hx
    rw [hdk, hsk]
    exact List.mem_append_left _ hx
  have hcD : c ∈ st.discovered := by
    rw [hdk]
    exact hcs
  have hrestnd : rest.Nodup := by
    rw [hq] at hqn
    exact (List.nodup_cons.1 hqn).2
  have hcrest : c ∉ rest := by
    rw [hq] at hqn
    exact (List.nodup_cons.1 hqn).1
  have hsort2 : List.Sorted (fun a b => depth ch root a ≤ depth ch root b)
      (st.sink ++ newOnes st.discovered (ch c)) := by
    refine List.pairwise_append.2 ⟨hsort, ?_, ?_⟩
    · apply List.pairwise_of_forall_mem_list
      intro a ha b hb
      rw [hKdepth a ha, hKdepth b hb]
    · intro x hx y hy
      rw [hKdepth y hy]
      exact hsinkdepth x hx
  have hK2 : st.sink ++ newOnes st.discovered (ch c) =
      (st.visited ++ [c]) ++ (rest ++ newOnes st.discovered (ch c)) := by
    rw [hsk, hq]
    simp
  have hQ2sorted : List.Sorted (fun a b => depth ch root a ≤ depth ch root b)
      (rest ++ newOnes st.discovered (ch c)) := by
    apply List.Pairwise.sublist _ hsort2
    rw [hK2]
    exact (List.suffix_append _ _).sublist
  have hmin : ∀ u, (rest ++ newOnes st.discovered (ch c)).head? = some u →
      ∀ x ∈ rest ++ newOnes st.discovered (ch c),
        depth ch root u ≤ depth ch root x := by
    intro u hu x hx
    cases hrk : rest ++ newOnes st.discovered (ch c) with
    | nil =>
      rw [hrk] at hx
      simp at hx
    | cons q0 qt =>
      rw [hrk] at hu hx
      injection hu with hu
      subst hu
      rcases List.mem_cons.1 hx with rfl | hx
      · exact le_refl _
      · rw [hrk] at hQ2sorted
        exact (List.sorted_cons.1 hQ2sorted).1 x hx
  have hheadrange : ∀ u, (rest ++ newOnes st.discovered (ch c)).head? = some u →
      depth ch root c ≤ depth ch root u ∧
        depth ch root u ≤ depth ch root c + 1 := by
    intro u hu
    have humem := head?_mem_list hu
    rcases List.mem_append.1 humem with h | h
    · exact ⟨hrestge u h, hrestle u h⟩
    · rw [hKdepth u h]
      omega
  refine ⟨hK2, ?_, ?_, hsort2, ?_, ?_, ?_, ?_, ?_, ?_⟩
  · rw [hdk]
  · intro v hv
    rcases List.mem_append.1 hv with h | h
    · exact hreach v h
    · exact hKreach v h
  · intro u hu v hv
    obtain ⟨hlb, hub⟩ := hheadrange u hu
    rcases List.mem_append.1 hv with h | h
    · have := hsinkdepth v h
      omega
    · rw [hKdepth v h]
      omega
  · intro u hu w hw hlt
    obtain ⟨hlb, hub⟩ := hheadrange u hu
    by_cases hcase : depth ch root w < depth ch root c
    · exact List.mem_append_left _ (hshallow c hhead w hw hcase)
    · have hwD : w ∈ st.discovered := hdeep c hhead w hw (by omega)
      rw [hdk, hsk, hq] at hwD
      rcases List.mem_append.1 hwD with h | h
      · exact List.mem_append_left _ h
      · rcases List.mem_cons.1 h with rfl | h
        · exact List.mem_append_right _ (List.mem_singleton.2 rfl)
        · exfalso
          have := hmin u hu w (List.mem_append_left _ h)
          omega
  · intro u hu w hw hle
    obtain ⟨hlb, hub⟩ := hheadrange u hu
    by_cases hcase : depth ch root w ≤ depth ch root c
    · exact List.mem_append_left _ (hdeep c hhead w hw hcase)
    · have hwd : depth ch root w = depth ch root c + 1 := by omega
      obtain ⟨p, hpr, hpd, hwp⟩ := depth_parent hw hwd
      by_cases hpc : depth ch root p < depth ch root c
      · have hpV : p ∈ st.visited := hshallow c hhead p hpr hpc
        exact List.mem_append_left _ (hchild p hpV w hwp)
      · have hpD : p ∈ st.discovered := hdeep c hhead p hpr (by omega)
        rw [hdk, hsk, hq] at hpD
        rcases List.mem_append.1 hpD with h | h
        · exact List.mem_append_left _ (hchild p h w hwp)
        · rcases List.mem_cons.1 h with rfl | h
          · rcases mem_disc_or_newOnes st.discovered (ch p) w hwp with hd | hd
            · exact List.mem_append_left _ hd
            · exact List.mem_append_right _ hd
          · exfalso
            have := hmin u hu p (List.mem_append_left _ h)
            omega
  · intro p hp v hv
    rcases List.mem_append.1 hp with h | h
    · exact List.mem_append_left _ (hchild p h v hv)
    · have hpc : p = c := List.mem_singleton.1 h
      subst hpc
      rcases mem_disc_or_newOnes st.discovered (ch p) v hv with hd | hd
      · exact List.mem_append_left _ hd
      · exact List.mem_append_right _ hd
  · refine List.Nodup.append hrestnd (newOnes_nodup _ _) ?_
    intro a ha hK
    exact hKnd a hK (hrestD a ha)
  · intro u hu hmem
    rcases List.mem_append.1 hu with h | h
    · rcases List.mem_append.1 hmem with hm | hm
      · exact hqv u (by rw [hq]; exact List.mem_cons_of_mem _ h) hm
      · exact hcrest ((List.mem_singleton.1 hm) ▸ h)
    · rcases List.mem_append.1 hmem with hm | hm
      · exact hKnd u h (hVD u hm)
      · exact hKnd u h ((List.mem_singleton.1 hm) ▸ hcD)

/-- The breadth-first invariant is preserved by the whole crawl loop. -/
lemma BFSInv_preserved (f : String → String) (l : String → List String)
    (nb : String) (ex : List String) (root : String) :
    ∀ (fuel : Nat) (st : CrawlState),
      BFSInv (bfsChildren f l nb ex) root st →
      BFSInv (bfsChildren f l nb ex) root (crawlLoop f l nb ex fuel st) := by
  intro fuel
  induction fuel with
  | zero =>
    intro st h
    rw [crawlLoop_zero]
    exact h
  | succ n ih =>
    intro st hInv
    cases hq : st.queue with
    | nil =>
      rw [crawlLoop_nil f l nb ex (n + 1) st hq]
      exact hInv
    | cons c rest =>
      have hcv : c ∉ st.visited := by
        obtain ⟨-, -, -, -, -, -, -, -, -, hqv⟩ := hInv
        exact hqv c (by rw [hq]; exact List.mem_cons_self _ _)
      rw [crawlLoop_succ_visit f l nb ex n st c rest hq hcv]
      exact ih _ (BFSInv_step (bfsChildren f l nb ex) root st c rest _ hq hInv)

/-- C8: traversal is breadth-first by discovery order.  For every
accepted crawl run, the sink lists URLs in nondecreasing BFS depth of
the link graph induced by the fetcher and extractor (rooted at the
normalized seed), so all depth-N entries precede every depth-(N+1)
entry; and on the concrete 3-level fixture the sink is the root, then
both depth-1 URLs, then the depth-2 URLs. -/
theorem bfs_layering :
    (∀ (f : String → String) (l : String → List String) (s b : String)
       (ex : List String) (fuel : Nat),
      is_allowed (normalize_url (urljoin (normalize_url b ++ "/") s))
          (normalize_url b) ex = true →
      List.Sorted
        (fun x y =>
          depth (bfsChildren f l (normalize_url b) ex)
              (normalize_url (urljoin (normalize_url b ++ "/") s)) x ≤
            depth (bfsChildren f l (normalize_url b) ex)
              (normalize_url (urljoin (normalize_url b ++ "/") s)) y)
        (crawl f l s b ex fuel).2.sink) ∧
    (crawl fetch3 links3 "http://x/d" "http://x/d" [] 10).2.sink =
      ["http://x/d", "http://x/d/a", "http://x/d/b",
       "http://x/d/a1", "http://x/d/a2", "http://x/d/b1"] := by
  constructor
  · intro f l s b ex fuel hacc
    rw [crawl_accepted f l s b ex fuel hacc]
    exact (BFSInv_preserved f l (normalize_url b) ex
      (normalize_url (urljoin (normalize_url b ++ "/") s)) fuel
      (seedState (normalize_url (urljoin (normalize_url b ++ "/") s)))
      (BFSInv_seed _ _)).2.2.2.1
  · decide

/-- Witness for C8 at the 3-level fixture: the seed is in scope and the
final sink is depth-sorted. -/
theorem bfs_layering_witness :
    is_allowed (normalize_url (urljoin (normalize_url "http://x/d" ++ "/") "http://x/d"))
        (normalize_url "http://x/d") [] = true ∧
    List.Sorted
      (fun x y =>
        depth (bfsChildren fetch3 links3 (normalize_url "http://x/d") [])
            (normalize_url (urljoin (normalize_url "http://x/d" ++ "/") "http://x/d")) x ≤
          depth (bfsChildren fetch3 links3 (normalize_url "http://x/d") [])
            (normalize_url (urljoin (normalize_url "http://x/d" ++ "/") "http://x/d")) y)
      (crawl fetch3 links3 "http://x/d" "http://x/d" [] 10).2.sink :=
  ⟨by decide,
    bfs_layering.1 fetch3 links3 "http://x/d" "http://x/d" [] 10 (by decide)⟩

end CrawlLinks
